import Mathlib

/-!
Verification of the `mdrelease` changelog-driven release tool.

The development shallowly embeds two components of the Go source:

* `internal/changelog/changelog.go` — the changelog parser `ParseLatest`,
  including a faithful leftmost-first (backtracking) matcher for the Go
  regular expression
  `^#\s*([0-9]+(?:\.[0-9]+){1,2}(?:-[0-9A-Za-z.-]+)?(?:\+[0-9A-Za-z.-]+)?)\s*-\s*(.+)$`;
* `internal/app/app.go` — the release orchestrator `runRelease` (action
  resolution and the guarded sequence of git-port calls), with the git
  port abstracted as an environment of per-operation responses;
* `internal/gitutil/gitutil.go` — the `Client` methods, modelled as
  state-passing functions over an abstract repository world together
  with the list of external git commands they actually issue.

File I/O (opening the changelog file) is outside the embedding: the
parser is modelled on the document contents, matching the code after a
successful read.
-/

namespace Mdrelease

open scoped List

/-! ## Character classes

`isDigit`/`isVerCls` are the classes `[0-9]` and `[0-9A-Za-z.-]` from the
regex in changelog.go line 48.  `isRE2Space` is RE2's `\s`, namely
`[\t\n\f\r ]`.  `isGoSpace` is Go's `unicode.IsSpace`, used by
`strings.TrimSpace` (note: it differs from RE2's `\s`, e.g. on `\v` and
the Unicode space code points). -/

def isDigit (c : Char) : Bool := 48 ≤ c.toNat && c.toNat ≤ 57

def isVerCls (c : Char) : Bool :=
  isDigit c || (65 ≤ c.toNat && c.toNat ≤ 90) || (97 ≤ c.toNat && c.toNat ≤ 122) ||
  c == '.' || c == '-'

def isRE2Space (c : Char) : Bool :=
  c == '\t' || c == '\n' || c == '\x0c' || c == '\r' || c == ' '

def isGoSpace (c : Char) : Bool :=
  c.toNat == 9 || c.toNat == 10 || c.toNat == 11 || c.toNat == 12 || c.toNat == 13 ||
  c.toNat == 32 || c.toNat == 0x85 || c.toNat == 0xa0 || c.toNat == 0x1680 ||
  (0x2000 <= c.toNat && c.toNat <= 0x200a) ||
  c.toNat == 0x2028 || c.toNat == 0x2029 || c.toNat == 0x202f ||
  c.toNat == 0x205f || c.toNat == 0x3000

/-- Go's `strings.TrimSpace`: strip `unicode.IsSpace` characters from both
ends. -/
def trimGo (s : String) : String :=
  String.mk (((s.toList.dropWhile isGoSpace).reverse.dropWhile isGoSpace).reverse)

/-! ## A leftmost-first matcher for the header regex

The regex engine is embedded in continuation-passing style.  Greedy
repetition tries the longest extension first and falls back on failure
(`<|>`), which reproduces RE2/Perl leftmost-first semantics, including
submatch capture: the first path through the alternation tree that
completes the whole (anchored) pattern determines the result. -/

/-- Greedy `p*` followed by continuation `k`: longest match first, then
backtrack one character at a time. -/
def star {α : Type} (p : Char → Bool) (k : List Char → Option α) :
    List Char → Option α
  | [] => k []
  | c :: rest =>
    if p c then (star p k rest) <|> k (c :: rest) else k (c :: rest)

/-- Greedy `p*` that also hands the consumed characters to the
continuation. -/
def starC {α : Type} (p : Char → Bool) (k : List Char → List Char → Option α) :
    List Char → Option α
  | [] => k [] []
  | c :: rest =>
    if p c then
      (starC p (fun cs r => k (c :: cs) r) rest) <|> k [] (c :: rest)
    else k [] (c :: rest)

/-- Greedy `p+` (at least one character), handing the consumed characters
to the continuation. -/
def plusC {α : Type} (p : Char → Bool) (k : List Char → List Char → Option α) :
    List Char → Option α
  | [] => none
  | c :: rest => if p c then starC p (fun cs r => k (c :: cs) r) rest else none

/-- A single literal character. -/
def chrThen {α : Type} (c : Char) (k : List Char → Option α) :
    List Char → Option α
  | [] => none
  | x :: rest => if x = c then k rest else none

/-- The pieces of capture group 1 of the header regex:
`[0-9]+` `(?:\.[0-9]+){1,2}` `(?:-[0-9A-Za-z.-]+)?` `(?:\+[0-9A-Za-z.-]+)?`.
`g2`, `pre`, `meta` store the characters after the leading `.`, `-`, `+`. -/
structure VerPieces where
  ds : List Char
  g1 : List Char
  g2 : Option (List Char)
  pre : Option (List Char)
  meta : Option (List Char)
deriving Repr, DecidableEq

/-- An optional piece together with its leading delimiter character. -/
def optRender (c : Char) : Option (List Char) → List Char
  | some x => c :: x
  | none => []

/-- The version text these pieces capture (group 1 of the regex). -/
def VerPieces.render (p : VerPieces) : List Char :=
  p.ds ++ ('.' :: (p.g1 ++ (optRender '.' p.g2 ++ (optRender '-' p.pre ++ optRender '+' p.meta))))

/-- `(?:\+[0-9A-Za-z.-]+)?` (greedy optional), then the continuation. -/
def metaPart {α : Type} (ds g1 : List Char) (g2 pre : Option (List Char))
    (k : VerPieces → List Char → Option α) (s : List Char) : Option α :=
  (chrThen '+' (plusC isVerCls (fun m r => k ⟨ds, g1, g2, pre, some m⟩ r)) s) <|>
    k ⟨ds, g1, g2, pre, none⟩ s

/-- `(?:-[0-9A-Za-z.-]+)?` (greedy optional), then the build-metadata
part. -/
def prePart {α : Type} (ds g1 : List Char) (g2 : Option (List Char))
    (k : VerPieces → List Char → Option α) (s : List Char) : Option α :=
  (chrThen '-' (plusC isVerCls (fun q r => metaPart ds g1 g2 (some q) k r)) s) <|>
    metaPart ds g1 g2 none k s

/-- `(?:\.[0-9]+){1,2}` (greedy: prefer two groups), then the optional
suffixes. -/
def groupsPart {α : Type} (ds : List Char)
    (k : VerPieces → List Char → Option α) (s : List Char) : Option α :=
  chrThen '.' (plusC isDigit (fun g1 r =>
    (chrThen '.' (plusC isDigit (fun g2 r2 => prePart ds g1 (some g2) k r2)) r) <|>
      prePart ds g1 none k r)) s

/-- Capture group 1 of the header regex, in pieces. -/
def verCore {α : Type} (k : VerPieces → List Char → Option α) :
    List Char → Option α :=
  plusC isDigit (fun ds r => groupsPart ds k r)

/-- The final `(.+)$`: `.` matches any character except `\n`, and the `$`
anchor forces the capture to extend to the end of the line. -/
def dotAllEnd (s : List Char) : Option (List Char) :=
  if s.isEmpty then none
  else if s.all (fun c => c != '\n') then some s else none

/-- `\s*-\s*(.+)$` — the separator and the summary capture (group 2). -/
def tailMatch : List Char → Option (List Char) :=
  star isRE2Space (chrThen '-' (star isRE2Space dotAllEnd))

/-- The whole pattern after the leading `#`: `\s*(ver)\s*-\s*(.+)$`,
returning (group 1, group 2). -/
def headMatch : List Char → Option (String × String) :=
  star isRE2Space (fun t1 =>
    verCore (fun pieces sv =>
      (tailMatch sv).map (fun summ => (String.mk pieces.render, String.mk summ))) t1)

/-- `headerRegex.FindStringSubmatch line` (changelog.go line 59): the
pattern is anchored `^...$`, so it matches only against the whole line. -/
def findHeader (line : String) : Option (String × String) :=
  match line.toList with
  | '#' :: rest => headMatch rest
  | _ => none

/-! ## Line splitting and the scan loop -/

/-- `strings.Split(doc, "\n")` on character lists (always at least one
part). -/
def splitNl : List Char → List (List Char)
  | [] => [[]]
  | c :: rest =>
    if c = '\n' then [] :: splitNl rest
    else
      match splitNl rest with
      | t :: ts => (c :: t) :: ts
      | [] => [[c]]

/-- `bufio.ScanLines` strips one trailing `\r` from each line. -/
def dropCR (l : List Char) : List Char :=
  if l.getLast? = some '\r' then l.dropLast else l

/-- The lines delivered by `bufio.Scanner` with `ScanLines`: split on
`\n`, drop the empty token produced after a final terminator (the
scanner yields no token there), strip one trailing `\r` per line. -/
def scanLines (doc : String) : List String :=
  let parts := splitNl doc.toList
  ((if parts.getLast? = some [] then parts.dropLast else parts).map dropCR).map
    String.mk

/-- `strings.HasPrefix(line, "#")`. -/
def hashPrefixed (line : String) : Bool :=
  match line.toList with
  | '#' :: _ => true
  | _ => false

/-- The bullet a line contributes while an entry is active (changelog.go
lines 73-81): trim the line, cut a leading `-`, trim the remainder, keep
it only if non-empty, re-prefixed with `"- "`. -/
def bulletOf (line : String) : Option String :=
  match (trimGo line).toList with
  | '-' :: after =>
    let b := trimGo (String.mk after)
    if b = "" then none else some ("- " ++ b)
  | _ => none

/-- The scanner loop of `ParseLatest` (changelog.go lines 55-82).  State:
the active entry's (version, summary) if one has been captured (already
trimmed, as the code trims at capture time), and the bullet lines
collected so far.  A second matching heading terminates the loop. -/
def scanLoop : List String → Option (String × String) → List String →
    Option (String × String) × List String
  | [], active, acc => (active, acc)
  | line :: rest, active, acc =>
    if hashPrefixed line then
      match findHeader line with
      | none => scanLoop rest active acc
      | some (v, s) =>
        match active with
        | none => scanLoop rest (some (trimGo v, trimGo s)) acc
        | some e => (some e, acc)
    else
      match active with
      | none => scanLoop rest none acc
      | some e =>
        match bulletOf line with
        | none => scanLoop rest (some e) acc
        | some b => scanLoop rest (some e) (acc ++ [b])

/-- `changelog.ExpectedFormat`. -/
def ExpectedFormat : String := "# <version> - <summary>"

/-- The grammar-failure message of `ParseLatest` (changelog.go line 95). -/
def parseFailMsg : String :=
  "unable to parse latest release entry (expected " ++ ExpectedFormat ++ ")"

/-- `changelog.Entry`. -/
structure Entry where
  Version : String
  Summary : String
  Description : String
deriving Repr, DecidableEq

/-- `strings.Join(bullets, "\n")` (the empty list joins to `""`, the
zero value `Description` keeps when no bullets were collected). -/
def joinNl : List String → String
  | [] => ""
  | [b] => b
  | b :: rest => b ++ "\n" ++ joinNl rest

/-- `changelog.ParseLatest` on the contents of a readable document
(changelog.go lines 50-103; the file-open and scanner I/O failures are
outside the embedding).  The success entry is complete or the result is
an error: no partial entry accompanies a failure. -/
def ParseLatest (doc : String) : Except String Entry :=
  match scanLoop (scanLines doc) none [] with
  | (some (v, s), bullets) =>
    if s = "" then .error parseFailMsg
    else .ok ⟨v, s, joinNl bullets⟩
  | (none, _) => .error parseFailMsg

/-- End-of-input acceptance continuation: succeed iff the whole input
was consumed. -/
def endk : VerPieces → List Char → Option Unit :=
  fun _ r => if r.isEmpty then some () else none

/-- Whether a string is fully generated by the version grammar of the
header regex (group 1): `MAJOR.MINOR[.PATCH]` with optional
`-prerelease` and `+buildmetadata` suffixes. -/
def isVersionString (v : String) : Bool :=
  (verCore endk v.toList).isSome

/-! ## Matcher lemmas

Extraction: a successful run of a matcher component yields consumed
characters of the right class and a successful continuation.  Running:
a component applied to characters of the right class followed by a
non-matching remainder succeeds whenever the continuation does. -/

theorem starC_extract {α : Type} {p : Char → Bool} :
    ∀ {s : List Char} {k : List Char → List Char → Option α} {r : α},
      starC p k s = some r → ∃ cs s', cs.all p = true ∧ k cs s' = some r := by
  intro s
  induction s with
  | nil =>
    intro k r h
    rw [starC] at h
    exact ⟨[], [], rfl, h⟩
  | cons c rest ih =>
    intro k r h
    rw [starC] at h
    by_cases hc : p c
    · rw [if_pos hc] at h
      rcases (Option.orElse_eq_some _ _ _).1 h with h1 | ⟨_, h2⟩
      · rcases ih h1 with ⟨cs, s', hall, hk⟩
        exact ⟨c :: cs, s', by simp [hc, hall], hk⟩
      · exact ⟨[], c :: rest, rfl, h2⟩
    · rw [if_neg hc] at h
      exact ⟨[], c :: rest, rfl, h⟩

theorem plusC_extract {α : Type} {p : Char → Bool}
    {k : List Char → List Char → Option α} {s : List Char} {r : α}
    (h : plusC p k s = some r) :
    ∃ cs s', cs ≠ [] ∧ cs.all p = true ∧ k cs s' = some r := by
  cases s with
  | nil => rw [plusC] at h; cases h
  | cons c rest =>
    rw [plusC] at h
    by_cases hc : p c
    · rw [if_pos hc] at h
      rcases starC_extract h with ⟨cs, s', hall, hk⟩
      exact ⟨c :: cs, s', by simp, by simp [hc, hall], hk⟩
    · rw [if_neg hc] at h; cases h

theorem chrThen_extract {α : Type} {c : Char} {k : List Char → Option α}
    {s : List Char} {r : α} (h : chrThen c k s = some r) :
    ∃ s', s = c :: s' ∧ k s' = some r := by
  cases s with
  | nil => rw [chrThen] at h; cases h
  | cons x rest =>
    rw [chrThen] at h
    by_cases hx : x = c
    · subst hx; rw [if_pos rfl] at h; exact ⟨rest, rfl, h⟩
    · rw [if_neg hx] at h; cases h

theorem star_extract {α : Type} {p : Char → Bool} {k : List Char → Option α} :
    ∀ {s : List Char} {r : α}, star p k s = some r → ∃ s', k s' = some r := by
  intro s
  induction s with
  | nil => intro r h; rw [star] at h; exact ⟨[], h⟩
  | cons c rest ih =>
    intro r h
    rw [star] at h
    by_cases hc : p c
    · rw [if_pos hc] at h
      rcases (Option.orElse_eq_some _ _ _).1 h with h1 | ⟨_, h2⟩
      · exact ih h1
      · exact ⟨c :: rest, h2⟩
    · rw [if_neg hc] at h
      exact ⟨c :: rest, h⟩

/-- Well-formedness of an optional piece: when present, non-empty and
drawn from the class `p`. -/
def OptOk (q : Option (List Char)) (p : Char → Bool) : Prop :=
  ∀ m, q = some m → m ≠ [] ∧ m.all p = true

theorem optOk_none {p : Char → Bool} : OptOk none p := fun _ hm => nomatch hm

/-- Well-formedness of the pieces produced by `verCore`. -/
def WFpieces (pc : VerPieces) : Prop :=
  pc.ds ≠ [] ∧ pc.ds.all isDigit = true ∧ pc.g1 ≠ [] ∧ pc.g1.all isDigit = true ∧
  OptOk pc.g2 isDigit ∧ OptOk pc.pre isVerCls ∧ OptOk pc.meta isVerCls

theorem metaPart_extract {α : Type} {ds g1 : List Char} {g2 pre : Option (List Char)}
    {k : VerPieces → List Char → Option α} {s : List Char} {r : α}
    (h : metaPart ds g1 g2 pre k s = some r) :
    ∃ q s', OptOk q isVerCls ∧ k ⟨ds, g1, g2, pre, q⟩ s' = some r := by
  rw [metaPart] at h
  rcases (Option.orElse_eq_some _ _ _).1 h with h1 | ⟨_, h2⟩
  · rcases chrThen_extract h1 with ⟨s1, _, hk⟩
    rcases plusC_extract hk with ⟨m, s', hne, hall, hk2⟩
    refine ⟨some m, s', ?_, hk2⟩
    intro x hx; injection hx with hx; subst hx; exact ⟨hne, hall⟩
  · exact ⟨none, s, optOk_none, h2⟩

theorem prePart_extract {α : Type} {ds g1 : List Char} {g2 : Option (List Char)}
    {k : VerPieces → List Char → Option α} {s : List Char} {r : α}
    (h : prePart ds g1 g2 k s = some r) :
    ∃ q mq s', OptOk q isVerCls ∧ OptOk mq isVerCls ∧
      k ⟨ds, g1, g2, q, mq⟩ s' = some r := by
  rw [prePart] at h
  rcases (Option.orElse_eq_some _ _ _).1 h with h1 | ⟨_, h2⟩
  · rcases chrThen_extract h1 with ⟨s1, _, hk⟩
    rcases plusC_extract hk with ⟨q, s', hne, hall, hk2⟩
    rcases metaPart_extract hk2 with ⟨mq, s'', hmq, hk3⟩
    refine ⟨some q, mq, s'', ?_, hmq, hk3⟩
    intro x hx; injection hx with hx; subst hx; exact ⟨hne, hall⟩
  · rcases metaPart_extract h2 with ⟨mq, s', hmq, hk3⟩
    exact ⟨none, mq, s', optOk_none, hmq, hk3⟩

theorem groupsPart_extract {α : Type} {ds : List Char}
    {k : VerPieces → List Char → Option α} {s : List Char} {r : α}
    (h : groupsPart ds k s = some r) :
    ∃ pc s', pc.ds = ds ∧ pc.g1 ≠ [] ∧ pc.g1.all isDigit = true ∧
      OptOk pc.g2 isDigit ∧ OptOk pc.pre isVerCls ∧ OptOk pc.meta isVerCls ∧
      k pc s' = some r := by
  rw [groupsPart] at h
  rcases chrThen_extract h with ⟨s1, _, hk⟩
  rcases plusC_extract hk with ⟨g1, s2, hg1ne, hg1all, hk2⟩
  rcases (Option.orElse_eq_some _ _ _).1 hk2 with h1 | ⟨_, h2⟩
  · rcases chrThen_extract h1 with ⟨s3, _, hk3⟩
    rcases plusC_extract hk3 with ⟨g2, s4, hg2ne, hg2all, hk4⟩
    rcases prePart_extract hk4 with ⟨q, mq, s5, hq, hmq, hk5⟩
    refine ⟨⟨ds, g1, some g2, q, mq⟩, s5, rfl, hg1ne, hg1all, ?_, hq, hmq, hk5⟩
    intro x hx; injection hx with hx; subst hx; exact ⟨hg2ne, hg2all⟩
  · rcases prePart_extract h2 with ⟨q, mq, s5, hq, hmq, hk5⟩
    exact ⟨⟨ds, g1, none, q, mq⟩, s5, rfl, hg1ne, hg1all, optOk_none, hq, hmq, hk5⟩

theorem verCore_extract {α : Type} {k : VerPieces → List Char → Option α}
    {s : List Char} {r : α} (h : verCore k s = some r) :
    ∃ pc s', WFpieces pc ∧ k pc s' = some r := by
  rw [verCore] at h
  rcases plusC_extract h with ⟨ds, s1, hdsne, hdsall, hk⟩
  rcases groupsPart_extract hk with ⟨pc, s', hds, hg1ne, hg1all, hg2, hq, hmq, hk2⟩
  refine ⟨pc, s', ⟨?_, ?_, hg1ne, hg1all, hg2, hq, hmq⟩, hk2⟩
  · rw [hds]; exact hdsne
  · rw [hds]; exact hdsall

theorem chrThen_run {α : Type} {c : Char} {k : List Char → Option α}
    {r : List Char} : chrThen c k (c :: r) = k r := by
  rw [chrThen, if_pos rfl]

theorem chrThen_ne {α : Type} {c x : Char} {k : List Char → Option α}
    {r : List Char} (h : ¬ x = c) : chrThen c k (x :: r) = none := by
  rw [chrThen, if_neg h]

theorem chrThen_nil {α : Type} {c : Char} {k : List Char → Option α} :
    chrThen c k [] = none := by
  rw [chrThen]

theorem starC_run {α : Type} {p : Char → Bool} :
    ∀ {cs : List Char} {k : List Char → List Char → Option α} {rest : List Char}
      {v : α}, cs.all p = true → (∀ c, rest.head? = some c → p c = false) →
      k cs rest = some v → starC p k (cs ++ rest) = some v := by
  intro cs
  induction cs with
  | nil =>
    intro k rest v _ hhead hk
    cases rest with
    | nil => rw [List.nil_append, starC]; exact hk
    | cons c t =>
      rw [List.nil_append, starC, if_neg (by simp [hhead c rfl])]
      exact hk
  | cons c cs ih =>
    intro k rest v hall hhead hk
    rw [List.all_cons, Bool.and_eq_true] at hall
    rw [List.cons_append, starC, if_pos hall.1]
    rw [ih hall.2 hhead hk]
    rfl

theorem plusC_run {α : Type} {p : Char → Bool} {cs rest : List Char}
    {k : List Char → List Char → Option α} {v : α}
    (hne : cs ≠ []) (hall : cs.all p = true)
    (hhead : ∀ c, rest.head? = some c → p c = false)
    (hk : k cs rest = some v) : plusC p k (cs ++ rest) = some v := by
  cases cs with
  | nil => exact absurd rfl hne
  | cons c cs =>
    rw [List.all_cons, Bool.and_eq_true] at hall
    rw [List.cons_append, plusC, if_pos hall.1]
    exact starC_run hall.2 hhead hk

theorem metaPart_run {ds g1 : List Char} {g2 pre : Option (List Char)}
    {mq : Option (List Char)} (hm : OptOk mq isVerCls) :
    metaPart ds g1 g2 pre endk (optRender '+' mq) = some () := by
  cases mq with
  | none =>
    rw [metaPart, show optRender '+' none = ([] : List Char) from rfl, chrThen_nil]
    rfl
  | some m =>
    rcases hm m rfl with ⟨hne, hall⟩
    have hk : endk ⟨ds, g1, g2, pre, some m⟩ [] = some () := rfl
    have h2 := plusC_run (p := isVerCls)
      (k := fun mm r => endk ⟨ds, g1, g2, pre, some mm⟩ r)
      hne hall (fun c hc => Option.noConfusion hc) hk
    rw [List.append_nil] at h2
    rw [metaPart, show optRender '+' (some m) = '+' :: m from rfl, chrThen_run, h2]
    rfl

theorem prePart_run {ds g1 : List Char} {g2 : Option (List Char)}
    {q mq : Option (List Char)} (hq : OptOk q isVerCls) (hm : OptOk mq isVerCls) :
    prePart ds g1 g2 endk (optRender '-' q ++ optRender '+' mq) = some () := by
  cases q with
  | none =>
    have h1 : chrThen '-'
        (plusC isVerCls (fun q' r => metaPart ds g1 g2 (some q') endk r))
        (optRender '+' mq) = none := by
      cases mq with
      | none => exact chrThen_nil
      | some m => exact chrThen_ne (by decide)
    rw [prePart, show optRender '-' none ++ optRender '+' mq = optRender '+' mq from rfl,
      h1, Option.none_orElse]
    exact metaPart_run hm
  | some qs =>
    rcases hq qs rfl with ⟨hne, hall⟩
    have hhead : ∀ c, (optRender '+' mq).head? = some c → isVerCls c = false := by
      cases mq with
      | none => intro c hc; cases hc
      | some m => intro c hc; injection hc with hc; subst hc; decide
    have h2 := plusC_run (p := isVerCls)
      (k := fun q' r => metaPart ds g1 g2 (some q') endk r)
      hne hall hhead (metaPart_run hm)
    rw [prePart,
      show optRender '-' (some qs) ++ optRender '+' mq
        = '-' :: (qs ++ optRender '+' mq) from rfl,
      chrThen_run, h2]
    rfl

theorem groupsTail_run {ds g1v : List Char} {g2 pre mq : Option (List Char)}
    (hg2 : OptOk g2 isDigit) (hq : OptOk pre isVerCls) (hm : OptOk mq isVerCls) :
    ((chrThen '.' (plusC isDigit (fun g2' r2 => prePart ds g1v (some g2') endk r2))
        (optRender '.' g2 ++ (optRender '-' pre ++ optRender '+' mq))) <|>
      prePart ds g1v none endk
        (optRender '.' g2 ++ (optRender '-' pre ++ optRender '+' mq))) = some () := by
  cases g2 with
  | none =>
    have h1 : chrThen '.'
        (plusC isDigit (fun g2' r2 => prePart ds g1v (some g2') endk r2))
        (optRender '-' pre ++ optRender '+' mq) = none := by
      cases pre with
      | some qs => exact chrThen_ne (by decide)
      | none =>
        cases mq with
        | none => exact chrThen_nil
        | some m => exact chrThen_ne (by decide)
    rw [show optRender '.' none ++ (optRender '-' pre ++ optRender '+' mq)
        = optRender '-' pre ++ optRender '+' mq from rfl, h1, Option.none_orElse]
    exact prePart_run hq hm
  | some g =>
    rcases hg2 g rfl with ⟨hgne, hgall⟩
    have hhead : ∀ c, (optRender '-' pre ++ optRender '+' mq).head? = some c →
        isDigit c = false := by
      cases pre with
      | some qs => intro c hc; injection hc with hc; subst hc; decide
      | none =>
        cases mq with
        | none => intro c hc; cases hc
        | some m => intro c hc; injection hc with hc; subst hc; decide
    have h2 := plusC_run (p := isDigit)
      (k := fun g2' r2 => prePart ds g1v (some g2') endk r2)
      hgne hgall hhead (prePart_run hq hm)
    rw [show optRender '.' (some g) ++ (optRender '-' pre ++ optRender '+' mq)
        = '.' :: (g ++ (optRender '-' pre ++ optRender '+' mq)) from rfl,
      chrThen_run, h2]
    rfl

theorem verCore_run {pc : VerPieces} (h : WFpieces pc) :
    verCore endk pc.render = some () := by
  obtain ⟨ds, g1v, g2, pre, mq⟩ := pc
  obtain ⟨hdsne, hdsall, hg1ne, hg1all, hg2, hq, hm⟩ := h
  rw [verCore, VerPieces.render]
  refine plusC_run hdsne hdsall ?_ ?_
  · intro c hc; injection hc with hc; subst hc; decide
  · rw [groupsPart, chrThen_run]
    refine plusC_run hg1ne hg1all ?_ ?_
    · cases g2 with
      | some g => intro c hc; injection hc with hc; subst hc; decide
      | none =>
        cases pre with
        | some qs => intro c hc; injection hc with hc; subst hc; decide
        | none =>
          cases mq with
          | none => intro c hc; cases hc
          | some m => intro c hc; injection hc with hc; subst hc; decide
    · exact groupsTail_run hg2 hq hm

theorem isVersionString_of_WF {pc : VerPieces} (h : WFpieces pc) :
    isVersionString (String.mk pc.render) = true := by
  rw [isVersionString, show (String.mk pc.render).toList = pc.render from rfl,
    verCore_run h]
  rfl

/-! ## Trimming lemmas -/

theorem dropWhile_eq_self_of_neg {p : Char → Bool} {xs : List Char}
    (h : ∀ c ∈ xs, p c = false) : xs.dropWhile p = xs := by
  cases xs with
  | nil => rfl
  | cons c rest =>
    rw [List.dropWhile_cons, h c (List.mem_cons_self c rest)]
    simp

theorem trimGo_mk_eq_self {xs : List Char} (h : ∀ c ∈ xs, isGoSpace c = false) :
    trimGo (String.mk xs) = String.mk xs := by
  rw [trimGo, show (String.mk xs).toList = xs from rfl,
    dropWhile_eq_self_of_neg h,
    dropWhile_eq_self_of_neg (fun c hc => h c (List.mem_reverse.mp hc)),
    List.reverse_reverse]

theorem isGoSpace_false_of_range {c : Char} (h1 : 43 ≤ c.toNat)
    (h2 : c.toNat ≤ 122) : isGoSpace c = false := by
  rw [isGoSpace]
  simp only [Bool.or_eq_false_iff, Bool.and_eq_false_iff, beq_eq_false_iff_ne,
    ne_eq, decide_eq_false_iff_not, not_le]
  omega

theorem isDigit_range {c : Char} (h : isDigit c = true) :
    43 ≤ c.toNat ∧ c.toNat ≤ 122 := by
  rw [isDigit] at h
  simp only [Bool.and_eq_true, decide_eq_true_eq] at h
  omega

theorem isVerCls_range {c : Char} (h : isVerCls c = true) :
    43 ≤ c.toNat ∧ c.toNat ≤ 122 := by
  rw [isVerCls, isDigit] at h
  simp only [Bool.or_eq_true, Bool.and_eq_true, decide_eq_true_eq,
    beq_iff_eq] at h
  rcases h with ((((h | h) | h) | h) | h)
  · omega
  · omega
  · omega
  · subst h; exact ⟨by decide, by decide⟩
  · subst h; exact ⟨by decide, by decide⟩

theorem all_not_space {xs : List Char} {p : Char → Bool}
    (hcls : ∀ c, p c = true → 43 ≤ c.toNat ∧ c.toNat ≤ 122)
    (hall : xs.all p = true) : ∀ c ∈ xs, isGoSpace c = false := by
  intro c hc
  have h := hcls c (List.all_eq_true.mp hall c hc)
  exact isGoSpace_false_of_range h.1 h.2

theorem optRender_not_space {d : Char} {o : Option (List Char)} {p : Char → Bool}
    (hd1 : 43 ≤ d.toNat) (hd2 : d.toNat ≤ 122)
    (hcls : ∀ c, p c = true → 43 ≤ c.toNat ∧ c.toNat ≤ 122)
    (ho : OptOk o p) : ∀ c ∈ optRender d o, isGoSpace c = false := by
  intro c hc
  cases o with
  | none => cases hc
  | some x =>
    rcases ho x rfl with ⟨_, hall⟩
    rw [optRender] at hc
    rcases List.mem_cons.mp hc with rfl | hcx
    · exact isGoSpace_false_of_range hd1 hd2
    · exact all_not_space hcls hall c hcx

theorem render_not_space {pc : VerPieces} (h : WFpieces pc) :
    ∀ c ∈ pc.render, isGoSpace c = false := by
  obtain ⟨ds, g1v, g2, pre, mq⟩ := pc
  obtain ⟨_, hdsall, _, hg1all, hg2, hq, hm⟩ := h
  intro c hc
  rw [VerPieces.render] at hc
  simp only [List.mem_append, List.mem_cons] at hc
  rcases hc with hc | rfl | hc | hc | hc | hc
  · exact all_not_space (fun c h => isDigit_range h) hdsall c hc
  · decide
  · exact all_not_space (fun c h => isDigit_range h) hg1all c hc
  · exact optRender_not_space (by decide) (by decide)
      (fun c h => isDigit_range h) hg2 c hc
  · exact optRender_not_space (by decide) (by decide)
      (fun c h => isVerCls_range h) hq c hc
  · exact optRender_not_space (by decide) (by decide)
      (fun c h => isVerCls_range h) hm c hc

theorem trimGo_render {pc : VerPieces} (h : WFpieces pc) :
    trimGo (String.mk pc.render) = String.mk pc.render :=
  trimGo_mk_eq_self (render_not_space h)

/-- A successful header match yields a version that is exactly a
rendering of well-formed pieces. -/
theorem findHeader_extract {line : String} {v s : String}
    (h : findHeader line = some (v, s)) :
    ∃ pc, WFpieces pc ∧ v = String.mk pc.render := by
  unfold findHeader at h
  split at h
  · rcases star_extract h with ⟨s1, h1⟩
    rcases verCore_extract h1 with ⟨pc, s2, hwf, h2⟩
    rcases Option.map_eq_some'.mp h2 with ⟨summ, _, heq⟩
    cases heq
    exact ⟨pc, hwf, rfl⟩
  · cases h

/-! ## Scan-loop lemmas -/

/-- The first line of the document that matches the header regex,
together with its captures. -/
def firstHeader (lines : List String) : Option (String × String) :=
  lines.findSome? findHeader

/-- The bullets contributed by a list of lines up to (excluding) the
next matching heading. -/
def bulletsUpTo (lines : List String) : List String :=
  (lines.takeWhile (fun l => (findHeader l).isNone)).filterMap bulletOf

theorem findHeader_hash {line : String} {r : String × String}
    (h : findHeader line = some r) : hashPrefixed line = true := by
  unfold findHeader at h
  split at h
  · next heq => unfold hashPrefixed; rw [heq]; rfl
  · cases h

theorem findHeader_not_hash {line : String} (h : hashPrefixed line = false) :
    findHeader line = none := by
  unfold hashPrefixed at h
  split at h
  · cases h
  · next hne =>
    unfold findHeader
    split
    · next rest heq => exact absurd heq (hne rest)
    · rfl

/-- Trimming a `#`-headed line keeps the `#` in front. -/
theorem trim_head {c : Char} {r : List Char} (hc : isGoSpace c = false) :
    ∃ t, (((c :: r).dropWhile isGoSpace).reverse.dropWhile isGoSpace).reverse
      = c :: t := by
  rw [List.dropWhile_cons, hc]
  simp only [Bool.false_eq_true, if_false]
  rw [show (c :: r).reverse = r.reverse ++ [c] by simp, List.dropWhile_append]
  by_cases he : (r.reverse.dropWhile isGoSpace).isEmpty
  · rw [if_pos he, show ([c].dropWhile isGoSpace) = [c] by
      rw [List.dropWhile_cons, hc]; simp]
    exact ⟨[], by simp⟩
  · rw [if_neg he]
    exact ⟨(r.reverse.dropWhile isGoSpace).reverse, by simp⟩

/-- A `#`-prefixed line is never a bullet: its trimmed form still starts
with `#`. -/
theorem bulletOf_hash {line : String} (h : hashPrefixed line = true) :
    bulletOf line = none := by
  unfold hashPrefixed at h
  split at h
  · next rest heq =>
    obtain ⟨t, ht⟩ := trim_head (r := rest) (show isGoSpace '#' = false by decide)
    unfold bulletOf
    rw [show (trimGo line).toList
        = ((line.toList.dropWhile isGoSpace).reverse.dropWhile isGoSpace).reverse
        from rfl, heq, ht]
    rfl
  · cases h

theorem scanLoop_skip {line : String} {rest acc : List String}
    (h : findHeader line = none) :
    scanLoop (line :: rest) none acc = scanLoop rest none acc := by
  rw [scanLoop]
  by_cases hh : hashPrefixed line = true
  · rw [if_pos hh, h]
  · rw [if_neg hh]

theorem scanLoop_found {line : String} {rest acc : List String} {v s : String}
    (h : findHeader line = some (v, s)) :
    scanLoop (line :: rest) none acc
      = scanLoop rest (some (trimGo v, trimGo s)) acc := by
  rw [scanLoop, if_pos (findHeader_hash h), h]

/-- Once an entry is active, the loop appends exactly the bullets of the
lines before the next matching heading, and the active entry never
changes. -/
theorem scanLoop_active : ∀ (lines : List String) (e : String × String)
    (acc : List String),
    scanLoop lines (some e) acc = (some e, acc ++ bulletsUpTo lines) := by
  intro lines
  induction lines with
  | nil => intro e acc; rw [scanLoop, bulletsUpTo]; simp
  | cons line rest ih =>
    intro e acc
    rw [scanLoop, bulletsUpTo]
    by_cases hh : hashPrefixed line = true
    · rw [if_pos hh]
      cases hf : findHeader line with
      | none =>
        rw [ih]
        simp [bulletsUpTo, List.takeWhile_cons, hf, bulletOf_hash hh]
      | some r =>
        obtain ⟨v, s⟩ := r
        simp [List.takeWhile_cons, hf]
    · rw [if_neg hh]
      have hf : findHeader line = none := findHeader_not_hash (by simpa using hh)
      cases hb : bulletOf line with
      | none => rw [ih]; simp [bulletsUpTo, List.takeWhile_cons, hf, hb]
      | some b =>
        simp only [ih]
        simp [bulletsUpTo, List.takeWhile_cons, hf, hb, List.append_assoc]

theorem scanLoop_prefix_skip {pre : List String}
    (h : ∀ l ∈ pre, findHeader l = none) :
    ∀ rest acc, scanLoop (pre ++ rest) none acc = scanLoop rest none acc := by
  induction pre with
  | nil => intro rest acc; rfl
  | cons line pre ih =>
    intro rest acc
    rw [List.cons_append, scanLoop_skip (h line (List.mem_cons_self line pre))]
    exact ih (fun l hl => h l (List.mem_cons_of_mem line hl)) rest acc

theorem scanLoop_none_all {lines : List String} {acc : List String}
    (h : ∀ l ∈ lines, findHeader l = none) :
    scanLoop lines none acc = (none, acc) := by
  have := scanLoop_prefix_skip h [] acc
  rw [List.append_nil] at this
  rw [this, scanLoop]

theorem findSome?_split {α β : Type} {f : α → Option β} :
    ∀ {l : List α} {b : β}, l.findSome? f = some b →
      ∃ l1 x l2, l = l1 ++ x :: l2 ∧ (∀ y ∈ l1, f y = none) ∧ f x = some b := by
  intro l
  induction l with
  | nil => intro b h; cases h
  | cons x xs ih =>
    intro b h
    rw [List.findSome?_cons] at h
    cases hx : f x with
    | some v =>
      rw [hx] at h
      exact ⟨[], x, xs, rfl, by simp, by rw [hx]; exact h⟩
    | none =>
      rw [hx] at h
      rcases ih h with ⟨l1, y, l2, rfl, hnone, hy⟩
      refine ⟨x :: l1, y, l2, rfl, ?_, hy⟩
      intro z hz
      rcases List.mem_cons.mp hz with rfl | hz
      · exact hx
      · exact hnone z hz

/-- Full characterisation of `ParseLatest` when the document has a first
matching heading. -/
theorem ParseLatest_split {doc : String} {pre rest : List String}
    {h1 : String} {v s : String}
    (hsplit : scanLines doc = pre ++ h1 :: rest)
    (hpre : ∀ l ∈ pre, findHeader l = none)
    (hhead : findHeader h1 = some (v, s)) :
    ParseLatest doc =
      if trimGo s = "" then .error parseFailMsg
      else .ok ⟨trimGo v, trimGo s, joinNl (bulletsUpTo rest)⟩ := by
  rw [ParseLatest, hsplit, scanLoop_prefix_skip hpre, scanLoop_found hhead,
    scanLoop_active]
  rw [List.nil_append]

/-- `ParseLatest` fails when no line matches the header regex. -/
theorem ParseLatest_no_header {doc : String}
    (h : ∀ l ∈ scanLines doc, findHeader l = none) :
    ParseLatest doc = .error parseFailMsg := by
  rw [ParseLatest, scanLoop_none_all h]

/-- Inversion: a successful parse comes from the first matching heading,
whose trimmed summary is non-empty. -/
theorem ParseLatest_ok_inv {doc : String} {e : Entry}
    (h : ParseLatest doc = .ok e) :
    ∃ v s, firstHeader (scanLines doc) = some (v, s) ∧
      e.Version = trimGo v ∧ e.Summary = trimGo s ∧ trimGo s ≠ "" := by
  cases hf : firstHeader (scanLines doc) with
  | none =>
    rw [ParseLatest_no_header (List.findSome?_eq_none_iff.mp hf)] at h
    cases h
  | some r =>
    obtain ⟨v, s⟩ := r
    rcases findSome?_split hf with ⟨pre, x, rest, hsplit, hpre, hx⟩
    rw [ParseLatest_split hsplit hpre hx] at h
    by_cases hs : trimGo s = ""
    · rw [if_pos hs] at h; cases h
    · rw [if_neg hs] at h
      injection h with h
      subst h
      exact ⟨v, s, rfl, rfl, rfl, hs⟩

theorem takeWhile_middle {p : String → Bool} :
    ∀ {mid : List String} {h2 : String} {rest : List String},
      (∀ l ∈ mid, p l = true) → p h2 = false →
      (mid ++ h2 :: rest).takeWhile p = mid := by
  intro mid
  induction mid with
  | nil =>
    intro h2 rest _ hh2
    rw [List.nil_append, List.takeWhile_cons, hh2]
    simp
  | cons x mid ih =>
    intro h2 rest hmid hh2
    rw [List.cons_append, List.takeWhile_cons,
      hmid x (List.mem_cons_self x mid)]
    simp only [if_true]
    rw [ih (fun l hl => hmid l (List.mem_cons_of_mem x hl)) hh2]


/-! ## Claims about the changelog parser -/

/-- C1: in a document whose first release-heading line is later followed
by a second matching heading line, `ParseLatest` collects as description
exactly the bullets of the lines strictly between the two headings —
each bullet being the line's trimmed remainder after the leading `-`,
re-prefixed with `"- "`, kept only if non-empty — joined with newline
(empty if none).  In particular the given concrete document parses to
version `1.2.3`, summary `Add release flow`, description
`- Added parser\n- Added tests`. -/
theorem C1_description_bounded_by_second_heading :
    (∀ (doc : String) (pre mid rest : List String) (h1 h2 v s : String),
      scanLines doc = pre ++ h1 :: (mid ++ h2 :: rest) →
      (∀ l ∈ pre, findHeader l = none) →
      findHeader h1 = some (v, s) →
      (∀ l ∈ mid, findHeader l = none) →
      (findHeader h2).isSome = true →
      trimGo s ≠ "" →
      ParseLatest doc = .ok ⟨trimGo v, trimGo s, joinNl (mid.filterMap bulletOf)⟩) ∧
    ParseLatest
        "# 1.2.3 - Add release flow\n\n- Added parser\n- Added tests\n\n# 1.2.2 - Previous\n- Old"
      = .ok ⟨"1.2.3", "Add release flow", "- Added parser\n- Added tests"⟩ := by
  constructor
  · intro doc pre mid rest h1 h2 v s hsplit hpre hh1 hmid hh2 hs
    rw [ParseLatest_split hsplit hpre hh1, if_neg hs]
    have htw : ((mid ++ h2 :: rest).takeWhile
        (fun l => (findHeader l).isNone)) = mid := by
      refine takeWhile_middle (fun l hl => ?_) ?_
      · rw [hmid l hl]; rfl
      · cases hfh : findHeader h2 with
        | none => rw [hfh] at hh2; cases hh2
        | some r => rfl
    rw [bulletsUpTo, htw]
  · rfl

/-- C1 witness: the general statement applied to a concrete document
with a leading non-matching line, one in-between bullet, and a second
heading followed by a trailing bullet that is excluded. -/
theorem C1_witness :
    ParseLatest "x\n# 1.0.0 - T\n- a\n# 0.9.0 - Old\n- b"
      = .ok ⟨"1.0.0", "T", "- a"⟩ :=
  C1_description_bounded_by_second_heading.1
    "x\n# 1.0.0 - T\n- a\n# 0.9.0 - Old\n- b"
    ["x"] ["- a"] ["- b"] "# 1.0.0 - T" "# 0.9.0 - Old" "1.0.0" "T"
    rfl (by decide) rfl (by decide) (by decide) (by decide)

/-- C2: in any document whose first release-heading-matching line is
preceded only by non-matching lines, at least one of which is a
`#`-prefixed line (a plain title such as `# Changelog` — blank or prose
lines may be interleaved), `ParseLatest` skips the whole prelude without
error and returns the entry of that first matching heading (when its
trimmed summary is non-empty). -/
theorem C2_leading_nonmatching_hash_lines_skipped :
    ∀ (doc : String) (pre rest : List String) (h1 v s : String),
      scanLines doc = pre ++ h1 :: rest →
      (∀ l ∈ pre, findHeader l = none) →
      (∃ l ∈ pre, hashPrefixed l = true) →
      findHeader h1 = some (v, s) →
      trimGo s ≠ "" →
      ∃ e, ParseLatest doc = .ok e ∧ e.Version = trimGo v ∧
        e.Summary = trimGo s := by
  intro doc pre rest h1 v s hsplit hpre _ hh1 hs
  rw [ParseLatest_split hsplit hpre hh1, if_neg hs]
  exact ⟨_, rfl, rfl, rfl⟩

/-- C2 witness: the spec's own scenario — a plain `# Changelog` title
mixed with blank and prose lines before the first real entry — parses to
that entry. -/
theorem C2_witness :
    ∃ e, ParseLatest
        "# Changelog\n\nIntro text\n\n# 1.2.3-beta.1+exp.sha - Pre-release"
      = .ok e ∧ e.Version = trimGo "1.2.3-beta.1+exp.sha" ∧
      e.Summary = trimGo "Pre-release" :=
  C2_leading_nonmatching_hash_lines_skipped
    "# Changelog\n\nIntro text\n\n# 1.2.3-beta.1+exp.sha - Pre-release"
    ["# Changelog", "", "Intro text", ""] []
    "# 1.2.3-beta.1+exp.sha - Pre-release" "1.2.3-beta.1+exp.sha"
    "Pre-release" rfl (by decide) ⟨"# Changelog", by decide⟩ rfl (by decide)


/-- C3: `ParseLatest` fails — always with the `ParseError` message naming
the expected `# <version> - <summary>` format — iff no line matches the
release-heading grammar or the first matching heading's captured summary
trims to empty; on success the entry's version matches the version
grammar (`MAJOR.MINOR[.PATCH]` with optional `-prerelease` and
`+buildmetadata`) and its summary is non-empty.  (All-or-nothing is
structural: the return type carries either an entry or an error.) -/
theorem C3_error_iff_no_valid_heading :
    ∀ doc : String,
      ((∃ em, ParseLatest doc = .error em) ↔
        (firstHeader (scanLines doc) = none ∨
          ∃ v s, firstHeader (scanLines doc) = some (v, s) ∧ trimGo s = "")) ∧
      (∀ em, ParseLatest doc = .error em → em = parseFailMsg) ∧
      parseFailMsg =
        "unable to parse latest release entry (expected " ++ ExpectedFormat ++ ")" ∧
      (∀ e, ParseLatest doc = .ok e →
        isVersionString e.Version = true ∧ e.Summary ≠ "") := by
  intro doc
  refine ⟨⟨?_, ?_⟩, ?_, rfl, ?_⟩
  · intro ⟨em, hem⟩
    cases hf : firstHeader (scanLines doc) with
    | none => exact Or.inl rfl
    | some r =>
      obtain ⟨v, s⟩ := r
      rcases findSome?_split hf with ⟨pre, x, rest, hsplit, hpre, hx⟩
      rw [ParseLatest_split hsplit hpre hx] at hem
      by_cases hs : trimGo s = ""
      · exact Or.inr ⟨v, s, rfl, hs⟩
      · rw [if_neg hs] at hem; cases hem
  · intro h
    rcases h with hf | ⟨v, s, hf, hs⟩
    · exact ⟨parseFailMsg, ParseLatest_no_header (List.findSome?_eq_none_iff.mp hf)⟩
    · rcases findSome?_split hf with ⟨pre, x, rest, hsplit, hpre, hx⟩
      exact ⟨parseFailMsg, by rw [ParseLatest_split hsplit hpre hx, if_pos hs]⟩
  · intro em hem
    cases hf : firstHeader (scanLines doc) with
    | none =>
      rw [ParseLatest_no_header (List.findSome?_eq_none_iff.mp hf)] at hem
      injection hem with hem
      exact hem.symm
    | some r =>
      obtain ⟨v, s⟩ := r
      rcases findSome?_split hf with ⟨pre, x, rest, hsplit, hpre, hx⟩
      rw [ParseLatest_split hsplit hpre hx] at hem
      by_cases hs : trimGo s = ""
      · rw [if_pos hs] at hem; injection hem with hem; exact hem.symm
      · rw [if_neg hs] at hem; cases hem
  · intro e he
    rcases ParseLatest_ok_inv he with ⟨v, s, hf, hv, hsum, hs⟩
    rcases findSome?_split hf with ⟨pre, x, rest, hsplit, hpre, hx⟩
    rcases findHeader_extract hx with ⟨pc, hwf, rfl⟩
    refine ⟨?_, ?_⟩
    · rw [hv, trimGo_render hwf]
      exact isVersionString_of_WF hwf
    · rw [hsum]; exact hs

/-- C3 witness: the success clause applied to a one-line document. -/
theorem C3_witness :
    isVersionString (Entry.Version ⟨"1.2.3", "Hi", ""⟩) = true ∧
      Entry.Summary ⟨"1.2.3", "Hi", ""⟩ ≠ "" :=
  (C3_error_iff_no_valid_heading "# 1.2.3 - Hi").2.2.2 ⟨"1.2.3", "Hi", ""⟩ rfl


/-- The header regex never matches after two leading `#` characters: the
version group must start with a digit. -/
theorem headMatch_double_hash (rest : List Char) :
    headMatch ('#' :: rest) = none := by
  rw [headMatch, star, if_neg (by decide)]
  rw [verCore, plusC, if_neg (by decide)]

/-- C4 counterexample: the regex `#\s*...` requires no whitespace after
the `#`, so `#1.2.3 - Summary` (leading `#` immediately followed by a
digit) IS taken as the active entry's heading, refuting the claim that a
candidate heading needs whitespace after the `#`. -/
theorem C4_counterexample :
    findHeader "#1.2.3 - Summary" = some ("1.2.3", "Summary") ∧
    ParseLatest "#1.2.3 - Summary" = .ok ⟨"1.2.3", "Summary", ""⟩ :=
  ⟨rfl, rfl⟩

/-- C4 (amended): a line is a candidate release heading only if its
single leading `#` is followed, after optional (possibly zero)
whitespace, by a version match; `##`-prefixed lines never match the
heading regex (so they are never taken as the active entry's heading),
but whitespace after the `#` is not required: `#1.2.3 - Summary`
matches. -/
theorem C4_hash_whitespace_amended :
    (∀ (line : String) (rest : List Char),
      line.toList = '#' :: '#' :: rest → findHeader line = none) ∧
    findHeader "#1.2.3 - Summary" = some ("1.2.3", "Summary") := by
  constructor
  · intro line rest hl
    have h2 : findHeader line = headMatch ('#' :: rest) := by
      unfold findHeader; rw [hl]; rfl
    rw [h2, headMatch_double_hash]
  · rfl

/-- C4 witness: a `##` heading line from the repository's own test data
is rejected by the matcher. -/
theorem C4_witness : findHeader "## 1.2.3 - Unsupported level" = none :=
  C4_hash_whitespace_amended.1 "## 1.2.3 - Unsupported level"
    (" 1.2.3 - Unsupported level".toList) rfl


/-! ## The release orchestrator (internal/app/app.go)

`runRelease` (app.go lines 231-435) is embedded with the git port
abstracted as an environment `Env` assigning each operation a response:
an error message, or success carrying a boolean (used by the `Has*`
queries; ignored by the others).  The orchestrator is deterministic in
these responses, so an environment captures any behaviour of the
`gitOps` interface.  Each run records the trace of port operations it
issued, in order. -/

/-- The operations of the `gitOps` port (app.go lines 28-46). -/
inductive GitOp where
  | ensureRepo : GitOp
  | ensureRemote (remote : String) : GitOp
  | fetchRemote (remote : String) : GitOp
  | pullFFOnly (remote : String) : GitOp
  | hasRemoteTag (remote tag : String) : GitOp
  | deleteRemoteTag (remote tag : String) : GitOp
  | hasLocalTag (tag : String) : GitOp
  | deleteLocalTag (tag : String) : GitOp
  | ensureTagAbsent (tag : String) : GitOp
  | ensureTagPresent (tag : String) : GitOp
  | stageAll : GitOp
  | hasStagedChanges : GitOp
  | commit (title body : String) : GitOp
  | createTag (tag title body : String) : GitOp
  | pushHead (remote : String) : GitOp
  | pushTag (remote tag : String) : GitOp
deriving Repr, DecidableEq

/-- A port environment: the response of each operation. -/
def Env : Type := GitOp → Except String Bool

/-- The error classes `run` can produce (app.go: `usageError`, the parser
`ParseError`, `preflightError`, and propagated git errors). -/
inductive RunErr where
  | usage (msg : String) : RunErr
  | parse (msg : String) : RunErr
  | preflight (msg : String) : RunErr
  | git (msg : String) : RunErr
deriving Repr, DecidableEq

/-- The orchestrator computation: the trace of issued port operations
together with the result (short-circuiting on the first error, as the
Go code returns on the first failing step). -/
def M (α : Type) : Type := List GitOp × Except RunErr α

def M.pure {α : Type} (a : α) : M α := ([], .ok a)

def M.bind {α β : Type} (x : M α) (f : α → M β) : M β :=
  match x with
  | (t, .error e) => (t, .error e)
  | (t, .ok a) => (t ++ (f a).1, (f a).2)

instance : Monad M where
  pure := M.pure
  bind := M.bind

/-- Issue a port call whose failure propagates as a git error. -/
def gitCall (env : Env) (o : GitOp) : M Unit :=
  match env o with
  | .error m => ([o], .error (.git m))
  | .ok _ => ([o], .ok ())

/-- Issue a port call whose failure is converted to a preflight
(precondition) error with the given message, as the orchestrator does
for `EnsureTagAbsent`/`EnsureTagPresent` (app.go lines 347-349 and
367-369). -/
def gitCallPre (env : Env) (o : GitOp) (msg : String) : M Unit :=
  match env o with
  | .error _ => ([o], .error (.preflight msg))
  | .ok _ => ([o], .ok ())

/-- Issue a boolean port query. -/
def gitQuery (env : Env) (o : GitOp) : M Bool :=
  match env o with
  | .error m => ([o], .error (.git m))
  | .ok b => ([o], .ok b)

/-- Fail with a preflight error without issuing a port call. -/
def failPre {α : Type} (msg : String) : M α := ([], .error (.preflight msg))

/-- `commonConfig` (app.go lines 124-129). -/
structure commonConfig where
  changelogPath : String
  remote : String
  tagPrefix : String
  dryRun : Bool
deriving Repr, DecidableEq

/-- `releaseActions` (app.go lines 131-137). -/
structure releaseActions where
  stageAll : Bool
  commit : Bool
  tag : Bool
  pushCommit : Bool
  pushTag : Bool
deriving Repr, DecidableEq

/-- The preflight message for an already-released tag (app.go line 348). -/
def tagExistsMsg (tag path : String) : String :=
  "no new changelog version to release: " ++ tag ++ " already exists (update "
    ++ path ++ ")"

/-- The preflight message when pushing a tag that does not exist locally
(app.go line 368). -/
def tagMissingMsg (tag : String) : String :=
  "cannot push tag " ++ tag ++
    ": create it first with --tag (or use default mdrelease/--all)"

/-- The preflight message when nothing is staged (app.go lines 388-391). -/
def noStagedMsg (stagedAll : Bool) (path : String) : String :=
  if stagedAll then
    "no changes to release after staging (update " ++ path
      ++ " or make code changes)"
  else "no staged changes to commit"

/-- The remediation suffix appended when a freshly created tag fails to
push (app.go line 422). -/
def pushTagRemediation (tag : String) : String :=
  " (tag " ++ tag ++ " was created locally and may need manual push/retry)"

/-- The `PushTag` step (app.go lines 418-426): on failure, if the tag was
created in this same invocation the error message is augmented with the
remediation suffix. -/
def pushTagStep (env : Env) (remote tag : String) (createdTag : Bool) : M Unit :=
  match env (.pushTag remote tag) with
  | .error m =>
    ([.pushTag remote tag],
      .error (.git (if createdTag then m ++ pushTagRemediation tag else m)))
  | .ok _ => ([.pushTag remote tag], .ok ())

/-- Remote validation and synchronisation (app.go lines 309-320), issued
only when a push is requested. -/
def syncPhase (env : Env) (remote : String) (needsRemote : Bool) : M Unit :=
  if needsRemote then
    gitCall env (.ensureRemote remote) >>= fun _ =>
    gitCall env (.fetchRemote remote) >>= fun _ =>
    gitCall env (.pullFFOnly remote)
  else pure ()

/-- The tag-action guard (app.go lines 322-351): with force-retag, delete
the remote tag (when also pushing) and the local tag when they exist;
otherwise assert the tag is absent, converting failure to a preflight
error. -/
def tagPhase (env : Env) (remote tag path : String) (a : releaseActions)
    (forceRetag : Bool) : M Unit :=
  if a.tag then
    if forceRetag then
      (if a.pushTag then
        gitQuery env (.hasRemoteTag remote tag) >>= fun hrt =>
          if hrt then gitCall env (.deleteRemoteTag remote tag) else pure ()
       else pure ()) >>= fun _ =>
      gitQuery env (.hasLocalTag tag) >>= fun hlt =>
        if hlt then gitCall env (.deleteLocalTag tag) else pure ()
    else gitCallPre env (.ensureTagAbsent tag) (tagExistsMsg tag path)
  else pure ()

/-- The push-only force-retag branch (app.go lines 353-364). -/
def retagPushOnlyPhase (env : Env) (remote tag : String) (a : releaseActions)
    (forceRetag : Bool) : M Unit :=
  if forceRetag && a.pushTag && !a.tag then
    gitQuery env (.hasRemoteTag remote tag) >>= fun hrt =>
      if hrt then gitCall env (.deleteRemoteTag remote tag) else pure ()
  else pure ()

/-- The tag-presence assertion before a push-only tag push (app.go lines
366-370). -/
def tagPresentPhase (env : Env) (tag : String) (a : releaseActions) : M Unit :=
  if a.pushTag && !a.tag then
    gitCallPre env (.ensureTagPresent tag) (tagMissingMsg tag)
  else pure ()

/-- Staging (app.go lines 372-377). -/
def stagePhase (env : Env) (a : releaseActions) : M Unit :=
  if a.stageAll then gitCall env .stageAll else pure ()

/-- The commit step with its staged-changes precondition (app.go lines
379-400); the check is skipped exactly when both dry-run and stage-all
hold. -/
def commitPhase (env : Env) (path : String) (a : releaseActions)
    (dryRun : Bool) (entry : Entry) : M Unit :=
  if a.commit then
    (if dryRun && a.stageAll then pure ()
     else
      gitQuery env .hasStagedChanges >>= fun staged =>
        if staged then pure ()
        else failPre (noStagedMsg a.stageAll path)) >>= fun _ =>
    gitCall env (.commit entry.Summary entry.Description)
  else pure ()

/-- The release steps after repository validation (app.go lines
309-426).  At the `PushTag` step the tag was created in this same
invocation iff `a.tag` holds: the `CreateTag` step (which sets
`createdTag`) runs exactly when `a.tag` is set, and a failure there
aborts before `PushTag`. -/
def stepsAfterRepo (env : Env) (cfg : commonConfig) (a : releaseActions)
    (forceRetag : Bool) (entry : Entry) (tag : String) : M Unit :=
  syncPhase env cfg.remote (a.pushCommit || a.pushTag) >>= fun _ =>
  tagPhase env cfg.remote tag cfg.changelogPath a forceRetag >>= fun _ =>
  retagPushOnlyPhase env cfg.remote tag a forceRetag >>= fun _ =>
  tagPresentPhase env tag a >>= fun _ =>
  stagePhase env a >>= fun _ =>
  commitPhase env cfg.changelogPath a cfg.dryRun entry >>= fun _ =>
  (if a.tag then gitCall env (.createTag tag entry.Summary entry.Description)
   else pure ()) >>= fun _ =>
  (if a.pushCommit then gitCall env (.pushHead cfg.remote) else pure ()) >>= fun _ =>
  (if a.pushTag then pushTagStep env cfg.remote tag a.tag else pure ())

/-- The release orchestration sequence of `runRelease` after flag
resolution and changelog parsing (app.go lines 305-426): repository
validation first, then the guarded steps, on the tag
`tagPrefix + entry.Version` (app.go line 292). -/
def releaseSteps (env : Env) (cfg : commonConfig) (a : releaseActions)
    (forceRetag : Bool) (entry : Entry) : M Unit :=
  gitCall env .ensureRepo >>= fun _ =>
  stepsAfterRepo env cfg a forceRetag entry (cfg.tagPrefix ++ entry.Version)

/-- The release action flags as passed on the command line: `none` means
the flag was not mentioned (Go's `flag` package `Visit` reports only
flags that were set; a flag explicitly set to `false` still counts as
visited). -/
structure ReleaseFlags where
  all : Bool
  stageAll : Option Bool
  commit : Option Bool
  tag : Option Bool
  push : Option Bool
  pushCommit : Option Bool
  pushTag : Option Bool
deriving Repr, DecidableEq

/-- `visited["stage-all"] || ... || visited["push-tag"]` (app.go line
268). -/
def explicitMutation (f : ReleaseFlags) : Bool :=
  f.stageAll.isSome || f.commit.isSome || f.tag.isSome || f.push.isSome ||
  f.pushCommit.isSome || f.pushTag.isSome

/-- The usage-error message for `--all` plus individual flags (app.go
line 270). -/
def allWithActionsMsg : String :=
  "--all cannot be combined with individual release action flags"

/-- Action resolution (app.go lines 267-286): `--all` with any explicit
action flag is a usage error; `--push` expands to both push flags; no
explicit flags (or `--all`) selects the full pipeline. -/
def resolveActions (f : ReleaseFlags) : Except String releaseActions :=
  if f.all && explicitMutation f then .error allWithActionsMsg
  else
    let a : releaseActions :=
      { stageAll := f.stageAll.getD false
        commit := f.commit.getD false
        tag := f.tag.getD false
        pushCommit := f.pushCommit.getD false
        pushTag := f.pushTag.getD false }
    let a := if f.push.getD false then { a with pushCommit := true, pushTag := true }
      else a
    if f.all || !explicitMutation f then .ok ⟨true, true, true, true, true⟩
    else .ok a

/-- `runRelease` (app.go lines 231-435) on the contents of the changelog
document: resolve actions (usage errors keep the orchestrator from ever
being invoked), parse the changelog, then run the release sequence. -/
def runRelease (env : Env) (cfg : commonConfig) (f : ReleaseFlags)
    (forceRetag : Bool) (doc : String) : M Unit :=
  match resolveActions f with
  | .error m => ([], .error (.usage m))
  | .ok a =>
    match ParseLatest doc with
    | .error m => ([], .error (.parse m))
    | .ok entry => releaseSteps env cfg a forceRetag entry


/-! ## Orchestrator trace lemmas -/

theorem trace_bind_ok {α β : Type} {x : M α} {a : α} (h : x.2 = .ok a)
    (f : α → M β) : (x >>= f).1 = x.1 ++ (f a).1 := by
  obtain ⟨t, r⟩ := x
  cases r with
  | error e => cases h
  | ok b => injection h with h; subst h; rfl

theorem bind_err {α β : Type} {x : M α} {e : RunErr} (h : x.2 = .error e)
    (f : α → M β) : x >>= f = (x.1, .error e) := by
  obtain ⟨t, r⟩ := x
  cases r with
  | error e2 => injection h with h; subst h; rfl
  | ok b => cases h

theorem mem_bind {α β : Type} {x : M α} {f : α → M β} {o : GitOp}
    (h : o ∈ (x >>= f).1) : o ∈ x.1 ∨ ∃ a, x.2 = .ok a ∧ o ∈ (f a).1 := by
  obtain ⟨t, r⟩ := x
  cases r with
  | error e => exact Or.inl h
  | ok a =>
    rcases List.mem_append.mp h with h | h
    · exact Or.inl h
    · exact Or.inr ⟨a, rfl, h⟩

theorem trace_bind_sublist {α β : Type} {x : M α} {f : α → M β}
    {u v : List GitOp} (h1 : x.1 <+ u) (h2 : ∀ a, (f a).1 <+ v) :
    (x >>= f).1 <+ u ++ v := by
  obtain ⟨t, r⟩ := x
  cases r with
  | error e => exact h1.trans (List.sublist_append_left u v)
  | ok a => exact List.Sublist.append h1 (h2 a)

theorem gitCall_trace (env : Env) (o : GitOp) : (gitCall env o).1 = [o] := by
  cases h : env o <;> simp [gitCall, h]

theorem gitCallPre_trace (env : Env) (o : GitOp) (msg : String) :
    (gitCallPre env o msg).1 = [o] := by
  cases h : env o <;> simp [gitCallPre, h]

theorem gitQuery_trace (env : Env) (o : GitOp) : (gitQuery env o).1 = [o] := by
  cases h : env o <;> simp [gitQuery, h]

theorem pushTagStep_trace (env : Env) (r t : String) (c : Bool) :
    (pushTagStep env r t c).1 = [.pushTag r t] := by
  cases h : env (.pushTag r t) <;> simp [pushTagStep, h]

theorem gitCall_sublist {env : Env} {o : GitOp} {L : List GitOp} (h : o ∈ L) :
    (gitCall env o).1 <+ L := by
  rw [gitCall_trace]
  exact List.singleton_sublist.mpr h

theorem syncPhase_sublist (env : Env) (r : String) (b : Bool) :
    (syncPhase env r b).1 <+
      [.ensureRemote r, .fetchRemote r, .pullFFOnly r] := by
  rw [syncPhase]
  by_cases hb : b = true
  · rw [if_pos hb]
    refine trace_bind_sublist (u := [.ensureRemote r])
      (v := [.fetchRemote r, .pullFFOnly r]) (gitCall_sublist (by simp))
      (fun _ => ?_)
    exact trace_bind_sublist (u := [.fetchRemote r]) (v := [.pullFFOnly r])
      (gitCall_sublist (by simp)) (fun _ => gitCall_sublist (by simp))
  · rw [if_neg hb]; exact List.nil_sublist _

theorem queryDelete_sublist (env : Env) (q d : GitOp) :
    ((gitQuery env q >>= fun h => if h then gitCall env d else pure ()) :
      M Unit).1 <+ [q, d] := by
  refine trace_bind_sublist (u := [q]) (v := [d]) ?_ (fun b => ?_)
  · rw [gitQuery_trace]
  · by_cases hb : b = true
    · rw [if_pos hb]; exact gitCall_sublist (by simp)
    · rw [if_neg hb]; exact List.nil_sublist _

theorem sublist_extend {l L : List GitOp} (x : GitOp) (h : l <+ L) :
    l <+ L ++ [x] :=
  h.trans (List.sublist_append_left L [x])

theorem tagPhase_sublist (env : Env) (r tag path : String) (a : releaseActions)
    (fr : Bool) :
    (tagPhase env r tag path a fr).1 <+
      [.hasRemoteTag r tag, .deleteRemoteTag r tag, .hasLocalTag tag,
       .deleteLocalTag tag, .ensureTagAbsent tag] := by
  rw [tagPhase]
  by_cases ht : a.tag = true
  · rw [if_pos ht]
    by_cases hf : fr = true
    · rw [if_pos hf]
      have h1 : ((if a.pushTag then
          gitQuery env (.hasRemoteTag r tag) >>= fun hrt =>
            (if hrt then gitCall env (.deleteRemoteTag r tag) else pure ())
          else pure ()) : M Unit).1 <+
          [.hasRemoteTag r tag, .deleteRemoteTag r tag] := by
        by_cases hp : a.pushTag = true
        · rw [if_pos hp]; exact queryDelete_sublist env _ _
        · rw [if_neg hp]; exact List.nil_sublist _
      exact sublist_extend (.ensureTagAbsent tag)
        (trace_bind_sublist (u := [.hasRemoteTag r tag, .deleteRemoteTag r tag])
          (v := [.hasLocalTag tag, .deleteLocalTag tag]) h1
          (fun _ => queryDelete_sublist env _ _))
    · rw [if_neg hf, gitCallPre_trace]
      exact List.singleton_sublist.mpr (by simp)
  · rw [if_neg ht]; exact List.nil_sublist _

theorem retagPushOnlyPhase_sublist (env : Env) (r tag : String)
    (a : releaseActions) (fr : Bool) :
    (retagPushOnlyPhase env r tag a fr).1 <+
      [.hasRemoteTag r tag, .deleteRemoteTag r tag] := by
  rw [retagPushOnlyPhase]
  by_cases h : (fr && a.pushTag && !a.tag) = true
  · rw [if_pos h]; exact queryDelete_sublist env _ _
  · rw [if_neg h]; exact List.nil_sublist _

theorem tagPresentPhase_sublist (env : Env) (tag : String) (a : releaseActions) :
    (tagPresentPhase env tag a).1 <+ [.ensureTagPresent tag] := by
  rw [tagPresentPhase]
  by_cases h : (a.pushTag && !a.tag) = true
  · rw [if_pos h, gitCallPre_trace]
  · rw [if_neg h]; exact List.nil_sublist _

theorem stagePhase_sublist (env : Env) (a : releaseActions) :
    (stagePhase env a).1 <+ [.stageAll] := by
  rw [stagePhase]
  by_cases h : a.stageAll = true
  · rw [if_pos h, gitCall_trace]
  · rw [if_neg h]; exact List.nil_sublist _

theorem commitPhase_sublist (env : Env) (path : String) (a : releaseActions)
    (dry : Bool) (e : Entry) :
    (commitPhase env path a dry e).1 <+
      [.hasStagedChanges, .commit e.Summary e.Description] := by
  rw [commitPhase]
  by_cases hc : a.commit = true
  · rw [if_pos hc]
    refine trace_bind_sublist (u := [.hasStagedChanges])
      (v := [.commit e.Summary e.Description]) ?_
      (fun _ => gitCall_sublist (by simp))
    by_cases hd : (dry && a.stageAll) = true
    · rw [if_pos hd]; exact List.nil_sublist _
    · rw [if_neg hd]
      have h2 : ∀ b : Bool,
          ((if b then pure () else failPre (noStagedMsg a.stageAll path)) :
            M Unit).1 <+ ([] : List GitOp) := by
        intro b
        by_cases hb : b = true
        · rw [if_pos hb]; exact List.nil_sublist _
        · rw [if_neg hb]; exact List.nil_sublist _
      exact trace_bind_sublist (u := [.hasStagedChanges]) (v := [])
        (by rw [gitQuery_trace]) h2
  · rw [if_neg hc]; exact List.nil_sublist _

theorem ifCall_sublist {e : Env} {b : Bool} {o : GitOp} :
    ((if b then gitCall e o else pure ()) : M Unit).1 <+ [o] := by
  by_cases h : b = true
  · rw [if_pos h, gitCall_trace]
  · rw [if_neg h]; exact List.nil_sublist _

/-- The fixed order in which `runRelease` can issue port operations (the
force-retag remote-tag check appears in two mutually exclusive branches,
hence twice). -/
def canonicalOrder (r tag : String) (e : Entry) : List GitOp :=
  [.ensureRepo] ++
  ([.ensureRemote r, .fetchRemote r, .pullFFOnly r] ++
  ([.hasRemoteTag r tag, .deleteRemoteTag r tag, .hasLocalTag tag,
    .deleteLocalTag tag, .ensureTagAbsent tag] ++
  ([.hasRemoteTag r tag, .deleteRemoteTag r tag] ++
  ([.ensureTagPresent tag] ++
  ([.stageAll] ++
  ([.hasStagedChanges, .commit e.Summary e.Description] ++
  ([.createTag tag e.Summary e.Description] ++
  ([.pushHead r] ++
  [.pushTag r tag]))))))))

/-- The canonical order without its leading `EnsureRepo`. -/
def canonicalTail (r tag : String) (e : Entry) : List GitOp :=
  [.ensureRemote r, .fetchRemote r, .pullFFOnly r] ++
  ([.hasRemoteTag r tag, .deleteRemoteTag r tag, .hasLocalTag tag,
    .deleteLocalTag tag, .ensureTagAbsent tag] ++
  ([.hasRemoteTag r tag, .deleteRemoteTag r tag] ++
  ([.ensureTagPresent tag] ++
  ([.stageAll] ++
  ([.hasStagedChanges, .commit e.Summary e.Description] ++
  ([.createTag tag e.Summary e.Description] ++
  ([.pushHead r] ++
  [.pushTag r tag])))))))

theorem stepsAfterRepo_sublist (env : Env) (cfg : commonConfig)
    (a : releaseActions) (fr : Bool) (entry : Entry) (tag : String) :
    (stepsAfterRepo env cfg a fr entry tag).1 <+
      canonicalTail cfg.remote tag entry := by
  rw [stepsAfterRepo, canonicalTail]
  refine trace_bind_sublist (syncPhase_sublist env cfg.remote _) (fun _ => ?_)
  refine trace_bind_sublist
    (tagPhase_sublist env cfg.remote tag cfg.changelogPath a fr) (fun _ => ?_)
  refine trace_bind_sublist (retagPushOnlyPhase_sublist env cfg.remote tag a fr)
    (fun _ => ?_)
  refine trace_bind_sublist (tagPresentPhase_sublist env tag a) (fun _ => ?_)
  refine trace_bind_sublist (stagePhase_sublist env a) (fun _ => ?_)
  refine trace_bind_sublist
    (commitPhase_sublist env cfg.changelogPath a cfg.dryRun entry) (fun _ => ?_)
  refine trace_bind_sublist ifCall_sublist (fun _ => ?_)
  refine trace_bind_sublist ifCall_sublist (fun _ => ?_)
  by_cases h : a.pushTag = true
  · rw [if_pos h, pushTagStep_trace]
  · rw [if_neg h]; exact List.nil_sublist _

theorem releaseSteps_sublist (env : Env) (cfg : commonConfig)
    (a : releaseActions) (fr : Bool) (entry : Entry) :
    (releaseSteps env cfg a fr entry).1 <+
      canonicalOrder cfg.remote (cfg.tagPrefix ++ entry.Version) entry := by
  rw [releaseSteps, canonicalOrder]
  exact trace_bind_sublist (gitCall_sublist (by simp))
    (fun _ => stepsAfterRepo_sublist env cfg a fr entry _)


theorem bind_eq {α β : Type} (x : M α) (f : α → M β) : x >>= f = M.bind x f := rfl

theorem pure_eq : (pure () : M Unit) = ([], Except.ok ()) := rfl

theorem syncPhase_ok_trace {env : Env} {r : String} {u : Unit}
    (h : (syncPhase env r true).2 = .ok u) :
    (syncPhase env r true).1 =
      [.ensureRemote r, .fetchRemote r, .pullFFOnly r] := by
  rw [syncPhase, if_pos rfl] at h ⊢
  cases h1 : env (.ensureRemote r) with
  | error m => simp [gitCall, h1, bind_eq, M.bind] at h
  | ok b1 =>
    cases h2 : env (.fetchRemote r) with
    | error m => simp [gitCall, h1, h2, bind_eq, M.bind] at h
    | ok b2 =>
      cases h3 : env (.pullFFOnly r) with
      | error m => simp [gitCall, h1, h2, h3, bind_eq, M.bind] at h
      | ok b3 => simp [gitCall, h1, h2, h3, bind_eq, M.bind]

/-- `EnsureRepo` opens every trace, and is never issued again. -/
theorem releaseSteps_head (env : Env) (cfg : commonConfig)
    (a : releaseActions) (fr : Bool) (entry : Entry) :
    ∃ t, (releaseSteps env cfg a fr entry).1 = .ensureRepo :: t ∧
      GitOp.ensureRepo ∉ t := by
  rw [releaseSteps]
  cases h1 : env .ensureRepo with
  | error m =>
    have hx : (gitCall env .ensureRepo).2 = Except.error (RunErr.git m) := by
      simp [gitCall, h1]
    rw [bind_err hx, gitCall_trace]
    exact ⟨[], rfl, by simp⟩
  | ok b =>
    have hx : (gitCall env .ensureRepo).2 = Except.ok () := by
      simp [gitCall, h1]
    rw [trace_bind_ok hx, gitCall_trace]
    refine ⟨_, rfl, fun hc => ?_⟩
    have := (stepsAfterRepo_sublist env cfg a fr entry _).subset hc
    simp [canonicalTail] at this

/-- All occurrences of `x` are strictly before all occurrences of `y`. -/
def Precedes (l : List GitOp) (x y : GitOp) : Prop :=
  ∃ l1 l2, l = l1 ++ l2 ∧ x ∈ l1 ∧ y ∈ l2 ∧ x ∉ l2 ∧ y ∉ l1

theorem precedes_of_sublist {l u v : List GitOp} {x y : GitOp}
    (h : l <+ u ++ v) (hx2 : x ∉ v) (hy1 : y ∉ u)
    (hxl : x ∈ l) (hyl : y ∈ l) : Precedes l x y := by
  rcases List.sublist_append_iff.mp h with ⟨l1, l2, rfl, hs1, hs2⟩
  have hxl1 : x ∈ l1 := by
    rcases List.mem_append.mp hxl with h1 | h1
    · exact h1
    · exact absurd (hs2.subset h1) hx2
  have hyl2 : y ∈ l2 := by
    rcases List.mem_append.mp hyl with h1 | h1
    · exact absurd (hs1.subset h1) hy1
    · exact h1
  exact ⟨l1, l2, rfl, hxl1, hyl2, fun hc => hx2 (hs2.subset hc),
    fun hc => hy1 (hs1.subset hc)⟩

/-- A push in the trace implies a push action was requested, and the
remote-validation and synchronisation calls are all in the trace (they
succeeded before the push could be issued). -/
theorem sync_before_push {env : Env} {cfg : commonConfig} {a : releaseActions}
    {fr : Bool} {entry : Entry} {o : GitOp}
    (ho : o = GitOp.pushHead cfg.remote ∨
      o = GitOp.pushTag cfg.remote (cfg.tagPrefix ++ entry.Version))
    (h : o ∈ (releaseSteps env cfg a fr entry).1) :
    (a.pushCommit || a.pushTag) = true ∧
    GitOp.ensureRemote cfg.remote ∈ (releaseSteps env cfg a fr entry).1 ∧
    GitOp.fetchRemote cfg.remote ∈ (releaseSteps env cfg a fr entry).1 ∧
    GitOp.pullFFOnly cfg.remote ∈ (releaseSteps env cfg a fr entry).1 := by
  rw [releaseSteps] at h ⊢
  rcases mem_bind h with h | ⟨u, hok, h⟩
  · rw [gitCall_trace] at h
    rcases ho with rfl | rfl <;> simp at h
  · rw [stepsAfterRepo] at h
    rcases mem_bind h with h | ⟨u2, hok2, h⟩
    · have hm := (syncPhase_sublist env cfg.remote _).subset h
      rcases ho with rfl | rfl <;> simp at hm
    · rcases mem_bind h with h | ⟨u3, hok3, h⟩
      · have hm := (tagPhase_sublist env cfg.remote _ cfg.changelogPath a fr).subset h
        rcases ho with rfl | rfl <;> simp at hm
      · rcases mem_bind h with h | ⟨u4, hok4, h⟩
        · have hm := (retagPushOnlyPhase_sublist env cfg.remote _ a fr).subset h
          rcases ho with rfl | rfl <;> simp at hm
        · rcases mem_bind h with h | ⟨u5, hok5, h⟩
          · have hm := (tagPresentPhase_sublist env _ a).subset h
            rcases ho with rfl | rfl <;> simp at hm
          · rcases mem_bind h with h | ⟨u6, hok6, h⟩
            · have hm := (stagePhase_sublist env a).subset h
              rcases ho with rfl | rfl <;> simp at hm
            · rcases mem_bind h with h | ⟨u7, hok7, h⟩
              · have hm := (commitPhase_sublist env cfg.changelogPath a
                  cfg.dryRun entry).subset h
                rcases ho with rfl | rfl <;> simp at hm
              · rcases mem_bind h with h | ⟨u8, hok8, h⟩
                · have hm := (ifCall_sublist (e := env)
                    (b := a.tag)
                    (o := .createTag (cfg.tagPrefix ++ entry.Version)
                      entry.Summary entry.Description)).subset h
                  rcases ho with rfl | rfl <;> simp at hm
                · have hneed : (a.pushCommit || a.pushTag) = true := by
                    rcases mem_bind h with h | ⟨u9, hok9, h⟩
                    · by_cases hc : a.pushCommit = true
                      · simp [hc]
                      · rw [if_neg hc] at h
                        exact absurd h (List.not_mem_nil o)
                    · by_cases hp : a.pushTag = true
                      · simp [hp]
                      · rw [if_neg hp] at h
                        exact absurd h (List.not_mem_nil o)
                  rw [hneed] at hok2
                  have htr := syncPhase_ok_trace hok2
                  refine ⟨hneed, ?_, ?_, ?_⟩ <;>
                    (rw [trace_bind_ok hok, gitCall_trace, stepsAfterRepo, hneed,
                      trace_bind_ok hok2, htr]; simp)


/-- Trace of a full default pipeline in which every port call succeeds
and staged changes exist. -/
theorem default_pipeline_trace {env : Env} {cfg : commonConfig} {entry : Entry}
    (henv : ∀ o, ∃ b, env o = Except.ok b)
    (hstaged : env .hasStagedChanges = .ok true)
    (hdry : cfg.dryRun = false) :
    (releaseSteps env cfg ⟨true, true, true, true, true⟩ false entry).1 =
      [.ensureRepo, .ensureRemote cfg.remote, .fetchRemote cfg.remote,
       .pullFFOnly cfg.remote,
       .ensureTagAbsent (cfg.tagPrefix ++ entry.Version), .stageAll,
       .hasStagedChanges, .commit entry.Summary entry.Description,
       .createTag (cfg.tagPrefix ++ entry.Version) entry.Summary
         entry.Description,
       .pushHead cfg.remote,
       .pushTag cfg.remote (cfg.tagPrefix ++ entry.Version)] := by
  obtain ⟨b1, h1⟩ := henv .ensureRepo
  obtain ⟨b2, h2⟩ := henv (.ensureRemote cfg.remote)
  obtain ⟨b3, h3⟩ := henv (.fetchRemote cfg.remote)
  obtain ⟨b4, h4⟩ := henv (.pullFFOnly cfg.remote)
  obtain ⟨b5, h5⟩ := henv (.ensureTagAbsent (cfg.tagPrefix ++ entry.Version))
  obtain ⟨b6, h6⟩ := henv .stageAll
  obtain ⟨b7, h7⟩ := henv (.commit entry.Summary entry.Description)
  obtain ⟨b8, h8⟩ := henv
    (.createTag (cfg.tagPrefix ++ entry.Version) entry.Summary entry.Description)
  obtain ⟨b9, h9⟩ := henv (.pushHead cfg.remote)
  obtain ⟨b10, h10⟩ := henv (.pushTag cfg.remote (cfg.tagPrefix ++ entry.Version))
  simp [releaseSteps, stepsAfterRepo, syncPhase, tagPhase, retagPushOnlyPhase,
    tagPresentPhase, stagePhase, commitPhase, gitCall, gitCallPre, gitQuery,
    pushTagStep, bind_eq, pure_eq, M.bind, h1, h2, h3, h4, h5, h6, h7, h8, h9,
    h10, hstaged, hdry]

/-- C5: action resolution precedes every git operation.  With no explicit
action flags and no `--all` the full pipeline is selected; `--all`
together with any individual action flag is a usage error and no git
operation is ever issued; `--push` sets both `pushCommit` and `pushTag`
in the resolved actions. -/
theorem C5_action_resolution :
    (∀ f : ReleaseFlags, f.all = false → explicitMutation f = false →
      resolveActions f = .ok ⟨true, true, true, true, true⟩) ∧
    (∀ f : ReleaseFlags, f.all = true → explicitMutation f = true →
      resolveActions f = .error allWithActionsMsg ∧
      ∀ (env : Env) (cfg : commonConfig) (fr : Bool) (doc : String),
        (runRelease env cfg f fr doc).1 = []) ∧
    (∀ (f : ReleaseFlags) (a : releaseActions), resolveActions f = .ok a →
      f.push = some true → a.pushCommit = true ∧ a.pushTag = true) := by
  refine ⟨?_, ?_, ?_⟩
  · intro f h1 h2
    simp [resolveActions, h1, h2]
  · intro f h1 h2
    exact ⟨by simp [resolveActions, h1, h2],
      fun env cfg fr doc => by simp [runRelease, resolveActions, h1, h2]⟩
  · intro f a hres hpush
    have hexp : explicitMutation f = true := by
      simp [explicitMutation, hpush]
    by_cases hall : f.all = true
    · simp [resolveActions, hall, hexp] at hres
    · simp only [Bool.not_eq_true] at hall
      simp [resolveActions, hall, hexp, hpush] at hres
      rw [← hres]
      exact ⟨rfl, rfl⟩

/-- C5 witness: the three clauses at concrete flag values. -/
theorem C5_witness :
    resolveActions ⟨false, none, none, none, none, none, none⟩
        = .ok ⟨true, true, true, true, true⟩ ∧
    resolveActions ⟨true, none, some true, none, none, none, none⟩
        = .error allWithActionsMsg ∧
    (runRelease (fun _ => .ok true) ⟨"changelog.md", "origin", "v", false⟩
        ⟨true, none, some true, none, none, none, none⟩ false "x").1 = [] ∧
    ((⟨false, false, false, true, true⟩ : releaseActions).pushCommit = true ∧
      (⟨false, false, false, true, true⟩ : releaseActions).pushTag = true) :=
  ⟨C5_action_resolution.1 ⟨false, none, none, none, none, none, none⟩ rfl rfl,
   (C5_action_resolution.2.1 ⟨true, none, some true, none, none, none, none⟩
      rfl rfl).1,
   (C5_action_resolution.2.1 ⟨true, none, some true, none, none, none, none⟩
      rfl rfl).2 (fun _ => .ok true) ⟨"changelog.md", "origin", "v", false⟩
      false "x",
   C5_action_resolution.2.2 ⟨false, none, none, none, some true, none, none⟩
      ⟨false, false, false, true, true⟩ rfl rfl⟩


/-- C6: the port operations of a release run are issued in a fixed
order: (1) `EnsureRepo` opens every trace and never recurs; (2) every
trace is a sublist of the canonical operation order; (3) any push
implies a push action was requested and is preceded by `EnsureRemote`,
`FetchRemote` and `PullFFOnly` (which are issued only for push runs);
(4) the tag-absence assertion precedes `CreateTag` and (5) the
tag-presence assertion precedes `PushTag` whenever both are issued; and
(6) the full default pipeline issues exactly `EnsureRepo, EnsureRemote,
FetchRemote, PullFFOnly, EnsureTagAbsent, StageAll, HasStagedChanges,
Commit, CreateTag, PushHead, PushTag`. -/
theorem C6_operation_order :
    (∀ (env : Env) (cfg : commonConfig) (a : releaseActions) (fr : Bool)
      (entry : Entry),
      ∃ t, (releaseSteps env cfg a fr entry).1 = .ensureRepo :: t ∧
        GitOp.ensureRepo ∉ t) ∧
    (∀ (env : Env) (cfg : commonConfig) (a : releaseActions) (fr : Bool)
      (entry : Entry),
      (releaseSteps env cfg a fr entry).1 <+
        canonicalOrder cfg.remote (cfg.tagPrefix ++ entry.Version) entry) ∧
    (∀ (env : Env) (cfg : commonConfig) (a : releaseActions) (fr : Bool)
      (entry : Entry) (o : GitOp),
      (o = GitOp.pushHead cfg.remote ∨
        o = GitOp.pushTag cfg.remote (cfg.tagPrefix ++ entry.Version)) →
      o ∈ (releaseSteps env cfg a fr entry).1 →
      (a.pushCommit || a.pushTag) = true ∧
      Precedes (releaseSteps env cfg a fr entry).1
        (.ensureRemote cfg.remote) o ∧
      Precedes (releaseSteps env cfg a fr entry).1 (.fetchRemote cfg.remote) o ∧
      Precedes (releaseSteps env cfg a fr entry).1 (.pullFFOnly cfg.remote) o) ∧
    (∀ (env : Env) (cfg : commonConfig) (a : releaseActions) (fr : Bool)
      (entry : Entry),
      GitOp.ensureTagAbsent (cfg.tagPrefix ++ entry.Version) ∈
        (releaseSteps env cfg a fr entry).1 →
      GitOp.createTag (cfg.tagPrefix ++ entry.Version) entry.Summary
        entry.Description ∈ (releaseSteps env cfg a fr entry).1 →
      Precedes (releaseSteps env cfg a fr entry).1
        (.ensureTagAbsent (cfg.tagPrefix ++ entry.Version))
        (.createTag (cfg.tagPrefix ++ entry.Version) entry.Summary
          entry.Description)) ∧
    (∀ (env : Env) (cfg : commonConfig) (a : releaseActions) (fr : Bool)
      (entry : Entry),
      GitOp.ensureTagPresent (cfg.tagPrefix ++ entry.Version) ∈
        (releaseSteps env cfg a fr entry).1 →
      GitOp.pushTag cfg.remote (cfg.tagPrefix ++ entry.Version) ∈
        (releaseSteps env cfg a fr entry).1 →
      Precedes (releaseSteps env cfg a fr entry).1
        (.ensureTagPresent (cfg.tagPrefix ++ entry.Version))
        (.pushTag cfg.remote (cfg.tagPrefix ++ entry.Version))) ∧
    (∀ (env : Env) (cfg : commonConfig) (entry : Entry),
      (∀ o, ∃ b, env o = Except.ok b) →
      env .hasStagedChanges = .ok true → cfg.dryRun = false →
      (releaseSteps env cfg ⟨true, true, true, true, true⟩ false entry).1 =
        [.ensureRepo, .ensureRemote cfg.remote, .fetchRemote cfg.remote,
         .pullFFOnly cfg.remote,
         .ensureTagAbsent (cfg.tagPrefix ++ entry.Version), .stageAll,
         .hasStagedChanges, .commit entry.Summary entry.Description,
         .createTag (cfg.tagPrefix ++ entry.Version) entry.Summary
           entry.Description,
         .pushHead cfg.remote,
         .pushTag cfg.remote (cfg.tagPrefix ++ entry.Version)]) := by
  refine ⟨releaseSteps_head, releaseSteps_sublist, ?_, ?_, ?_, ?_⟩
  · intro env cfg a fr entry o ho h
    obtain ⟨hneed, her, hfr, hpf⟩ := sync_before_push ho h
    have hsub := releaseSteps_sublist env cfg a fr entry
    rcases ho with rfl | rfl
    · exact ⟨hneed,
        precedes_of_sublist
          (u := [.ensureRepo, .ensureRemote cfg.remote, .fetchRemote cfg.remote,
            .pullFFOnly cfg.remote,
            .hasRemoteTag cfg.remote (cfg.tagPrefix ++ entry.Version),
            .deleteRemoteTag cfg.remote (cfg.tagPrefix ++ entry.Version),
            .hasLocalTag (cfg.tagPrefix ++ entry.Version),
            .deleteLocalTag (cfg.tagPrefix ++ entry.Version),
            .ensureTagAbsent (cfg.tagPrefix ++ entry.Version),
            .hasRemoteTag cfg.remote (cfg.tagPrefix ++ entry.Version),
            .deleteRemoteTag cfg.remote (cfg.tagPrefix ++ entry.Version),
            .ensureTagPresent (cfg.tagPrefix ++ entry.Version), .stageAll,
            .hasStagedChanges, .commit entry.Summary entry.Description,
            .createTag (cfg.tagPrefix ++ entry.Version) entry.Summary
              entry.Description])
          (v := [.pushHead cfg.remote,
            .pushTag cfg.remote (cfg.tagPrefix ++ entry.Version)])
          hsub (by simp) (by simp) her h,
        precedes_of_sublist
          (u := [.ensureRepo, .ensureRemote cfg.remote, .fetchRemote cfg.remote,
            .pullFFOnly cfg.remote,
            .hasRemoteTag cfg.remote (cfg.tagPrefix ++ entry.Version),
            .deleteRemoteTag cfg.remote (cfg.tagPrefix ++ entry.Version),
            .hasLocalTag (cfg.tagPrefix ++ entry.Version),
            .deleteLocalTag (cfg.tagPrefix ++ entry.Version),
            .ensureTagAbsent (cfg.tagPrefix ++ entry.Version),
            .hasRemoteTag cfg.remote (cfg.tagPrefix ++ entry.Version),
            .deleteRemoteTag cfg.remote (cfg.tagPrefix ++ entry.Version),
            .ensureTagPresent (cfg.tagPrefix ++ entry.Version), .stageAll,
            .hasStagedChanges, .commit entry.Summary entry.Description,
            .createTag (cfg.tagPrefix ++ entry.Version) entry.Summary
              entry.Description])
          (v := [.pushHead cfg.remote,
            .pushTag cfg.remote (cfg.tagPrefix ++ entry.Version)])
          hsub (by simp) (by simp) hfr h,
        precedes_of_sublist
          (u := [.ensureRepo, .ensureRemote cfg.remote, .fetchRemote cfg.remote,
            .pullFFOnly cfg.remote,
            .hasRemoteTag cfg.remote (cfg.tagPrefix ++ entry.Version),
            .deleteRemoteTag cfg.remote (cfg.tagPrefix ++ entry.Version),
            .hasLocalTag (cfg.tagPrefix ++ entry.Version),
            .deleteLocalTag (cfg.tagPrefix ++ entry.Version),
            .ensureTagAbsent (cfg.tagPrefix ++ entry.Version),
            .hasRemoteTag cfg.remote (cfg.tagPrefix ++ entry.Version),
            .deleteRemoteTag cfg.remote (cfg.tagPrefix ++ entry.Version),
            .ensureTagPresent (cfg.tagPrefix ++ entry.Version), .stageAll,
            .hasStagedChanges, .commit entry.Summary entry.Description,
            .createTag (cfg.tagPrefix ++ entry.Version) entry.Summary
              entry.Description])
          (v := [.pushHead cfg.remote,
            .pushTag cfg.remote (cfg.tagPrefix ++ entry.Version)])
          hsub (by simp) (by simp) hpf h⟩
    · exact ⟨hneed,
        precedes_of_sublist
          (u := [.ensureRepo, .ensureRemote cfg.remote, .fetchRemote cfg.remote,
            .pullFFOnly cfg.remote,
            .hasRemoteTag cfg.remote (cfg.tagPrefix ++ entry.Version),
            .deleteRemoteTag cfg.remote (cfg.tagPrefix ++ entry.Version),
            .hasLocalTag (cfg.tagPrefix ++ entry.Version),
            .deleteLocalTag (cfg.tagPrefix ++ entry.Version),
            .ensureTagAbsent (cfg.tagPrefix ++ entry.Version),
            .hasRemoteTag cfg.remote (cfg.tagPrefix ++ entry.Version),
            .deleteRemoteTag cfg.remote (cfg.tagPrefix ++ entry.Version),
            .ensureTagPresent (cfg.tagPrefix ++ entry.Version), .stageAll,
            .hasStagedChanges, .commit entry.Summary entry.Description,
            .createTag (cfg.tagPrefix ++ entry.Version) entry.Summary
              entry.Description, .pushHead cfg.remote])
          (v := [.pushTag cfg.remote (cfg.tagPrefix ++ entry.Version)])
          hsub (by simp) (by simp) her h,
        precedes_of_sublist
          (u := [.ensureRepo, .ensureRemote cfg.remote, .fetchRemote cfg.remote,
            .pullFFOnly cfg.remote,
            .hasRemoteTag cfg.remote (cfg.tagPrefix ++ entry.Version),
            .deleteRemoteTag cfg.remote (cfg.tagPrefix ++ entry.Version),
            .hasLocalTag (cfg.tagPrefix ++ entry.Version),
            .deleteLocalTag (cfg.tagPrefix ++ entry.Version),
            .ensureTagAbsent (cfg.tagPrefix ++ entry.Version),
            .hasRemoteTag cfg.remote (cfg.tagPrefix ++ entry.Version),
            .deleteRemoteTag cfg.remote (cfg.tagPrefix ++ entry.Version),
            .ensureTagPresent (cfg.tagPrefix ++ entry.Version), .stageAll,
            .hasStagedChanges, .commit entry.Summary entry.Description,
            .createTag (cfg.tagPrefix ++ entry.Version) entry.Summary
              entry.Description, .pushHead cfg.remote])
          (v := [.pushTag cfg.remote (cfg.tagPrefix ++ entry.Version)])
          hsub (by simp) (by simp) hfr h,
        precedes_of_sublist
          (u := [.ensureRepo, .ensureRemote cfg.remote, .fetchRemote cfg.remote,
            .pullFFOnly cfg.remote,
            .hasRemoteTag cfg.remote (cfg.tagPrefix ++ entry.Version),
            .deleteRemoteTag cfg.remote (cfg.tagPrefix ++ entry.Version),
            .hasLocalTag (cfg.tagPrefix ++ entry.Version),
            .deleteLocalTag (cfg.tagPrefix ++ entry.Version),
            .ensureTagAbsent (cfg.tagPrefix ++ entry.Version),
            .hasRemoteTag cfg.remote (cfg.tagPrefix ++ entry.Version),
            .deleteRemoteTag cfg.remote (cfg.tagPrefix ++ entry.Version),
            .ensureTagPresent (cfg.tagPrefix ++ entry.Version), .stageAll,
            .hasStagedChanges, .commit entry.Summary entry.Description,
            .createTag (cfg.tagPrefix ++ entry.Version) entry.Summary
              entry.Description, .pushHead cfg.remote])
          (v := [.pushTag cfg.remote (cfg.tagPrefix ++ entry.Version)])
          hsub (by simp) (by simp) hpf h⟩
  · intro env cfg a fr entry hx hy
    exact precedes_of_sublist
      (u := [.ensureRepo, .ensureRemote cfg.remote, .fetchRemote cfg.remote,
        .pullFFOnly cfg.remote,
        .hasRemoteTag cfg.remote (cfg.tagPrefix ++ entry.Version),
        .deleteRemoteTag cfg.remote (cfg.tagPrefix ++ entry.Version),
        .hasLocalTag (cfg.tagPrefix ++ entry.Version),
        .deleteLocalTag (cfg.tagPrefix ++ entry.Version),
        .ensureTagAbsent (cfg.tagPrefix ++ entry.Version)])
      (v := [.hasRemoteTag cfg.remote (cfg.tagPrefix ++ entry.Version),
        .deleteRemoteTag cfg.remote (cfg.tagPrefix ++ entry.Version),
        .ensureTagPresent (cfg.tagPrefix ++ entry.Version), .stageAll,
        .hasStagedChanges, .commit entry.Summary entry.Description,
        .createTag (cfg.tagPrefix ++ entry.Version) entry.Summary
          entry.Description, .pushHead cfg.remote,
        .pushTag cfg.remote (cfg.tagPrefix ++ entry.Version)])
      (releaseSteps_sublist env cfg a fr entry) (by simp) (by simp) hx hy
  · intro env cfg a fr entry hx hy
    exact precedes_of_sublist
      (u := [.ensureRepo, .ensureRemote cfg.remote, .fetchRemote cfg.remote,
        .pullFFOnly cfg.remote,
        .hasRemoteTag cfg.remote (cfg.tagPrefix ++ entry.Version),
        .deleteRemoteTag cfg.remote (cfg.tagPrefix ++ entry.Version),
        .hasLocalTag (cfg.tagPrefix ++ entry.Version),
        .deleteLocalTag (cfg.tagPrefix ++ entry.Version),
        .ensureTagAbsent (cfg.tagPrefix ++ entry.Version),
        .hasRemoteTag cfg.remote (cfg.tagPrefix ++ entry.Version),
        .deleteRemoteTag cfg.remote (cfg.tagPrefix ++ entry.Version),
        .ensureTagPresent (cfg.tagPrefix ++ entry.Version)])
      (v := [.stageAll, .hasStagedChanges,
        .commit entry.Summary entry.Description,
        .createTag (cfg.tagPrefix ++ entry.Version) entry.Summary
          entry.Description, .pushHead cfg.remote,
        .pushTag cfg.remote (cfg.tagPrefix ++ entry.Version)])
      (releaseSteps_sublist env cfg a fr entry) (by simp) (by simp) hx hy
  · intro env cfg entry henv hstaged hdry
    exact default_pipeline_trace henv hstaged hdry

/-- C6 witness: the default pipeline clause evaluated in an all-ok
environment. -/
theorem C6_witness :
    (releaseSteps (fun _ => Except.ok true)
        ⟨"changelog.md", "origin", "v", false⟩
        ⟨true, true, true, true, true⟩ false ⟨"1.2.3", "T", "D"⟩).1 =
      [.ensureRepo, .ensureRemote "origin", .fetchRemote "origin",
       .pullFFOnly "origin", .ensureTagAbsent ("v" ++ "1.2.3"), .stageAll,
       .hasStagedChanges, .commit "T" "D",
       .createTag ("v" ++ "1.2.3") "T" "D", .pushHead "origin",
       .pushTag "origin" ("v" ++ "1.2.3")] :=
  C6_operation_order.2.2.2.2.2 (fun _ => Except.ok true)
    ⟨"changelog.md", "origin", "v", false⟩ ⟨"1.2.3", "T", "D"⟩
    (fun o => ⟨true, rfl⟩) rfl rfl


/-- C7: each operator-precondition failure terminates the run with a
preflight error — a different `RunErr` constructor from hard git
errors — whose message names the concrete remedy: (a) tag action without
force-retag while the tag exists (update the changelog); (b) pushTag
without the tag action while no local tag exists (create it first);
(c) commit action without staged changes (nothing to release). -/
theorem C7_preflight_errors :
    (∀ m m' : String, RunErr.preflight m ≠ RunErr.git m') ∧
    (∀ (env : Env) (cfg : commonConfig) (a : releaseActions) (entry : Entry)
      (m : String),
      (∃ b, env .ensureRepo = Except.ok b) →
      (∃ b, env (.ensureRemote cfg.remote) = Except.ok b) →
      (∃ b, env (.fetchRemote cfg.remote) = Except.ok b) →
      (∃ b, env (.pullFFOnly cfg.remote) = Except.ok b) →
      a.tag = true →
      env (.ensureTagAbsent (cfg.tagPrefix ++ entry.Version)) = .error m →
      (releaseSteps env cfg a false entry).2 =
        .error (.preflight
          (tagExistsMsg (cfg.tagPrefix ++ entry.Version) cfg.changelogPath))) ∧
    (∀ (env : Env) (cfg : commonConfig) (a : releaseActions) (entry : Entry)
      (m : String),
      (∃ b, env .ensureRepo = Except.ok b) →
      (∃ b, env (.ensureRemote cfg.remote) = Except.ok b) →
      (∃ b, env (.fetchRemote cfg.remote) = Except.ok b) →
      (∃ b, env (.pullFFOnly cfg.remote) = Except.ok b) →
      a.tag = false → a.pushTag = true →
      env (.ensureTagPresent (cfg.tagPrefix ++ entry.Version)) = .error m →
      (releaseSteps env cfg a false entry).2 =
        .error (.preflight (tagMissingMsg (cfg.tagPrefix ++ entry.Version)))) ∧
    (∀ (env : Env) (cfg : commonConfig) (a : releaseActions) (entry : Entry),
      (∃ b, env .ensureRepo = Except.ok b) →
      (∃ b, env .stageAll = Except.ok b) →
      a.commit = true → a.tag = false → a.pushCommit = false →
      a.pushTag = false → cfg.dryRun = false →
      env .hasStagedChanges = .ok false →
      (releaseSteps env cfg a false entry).2 =
        .error (.preflight (noStagedMsg a.stageAll cfg.changelogPath))) := by
  refine ⟨fun m m' h => RunErr.noConfusion h, ?_, ?_, ?_⟩
  · intro env cfg a entry m he1 he2 he3 he4 ht hm
    obtain ⟨c1, h1⟩ := he1
    obtain ⟨c2, h2⟩ := he2
    obtain ⟨c3, h3⟩ := he3
    obtain ⟨c4, h4⟩ := he4
    by_cases hnr : (a.pushCommit || a.pushTag) = true <;>
      simp [releaseSteps, stepsAfterRepo, syncPhase, tagPhase, gitCall,
        gitCallPre, gitQuery, bind_eq, pure_eq, M.bind, h1, h2, h3, h4, ht,
        hm, hnr]
  · intro env cfg a entry m he1 he2 he3 he4 ht hp hm
    obtain ⟨c1, h1⟩ := he1
    obtain ⟨c2, h2⟩ := he2
    obtain ⟨c3, h3⟩ := he3
    obtain ⟨c4, h4⟩ := he4
    simp [releaseSteps, stepsAfterRepo, syncPhase, tagPhase,
      retagPushOnlyPhase, tagPresentPhase, gitCall, gitCallPre, gitQuery,
      bind_eq, pure_eq, M.bind, h1, h2, h3, h4, ht, hp, hm]
  · intro env cfg a entry he1 he6 hc ht hpc hpt hdry hstaged
    obtain ⟨c1, h1⟩ := he1
    obtain ⟨c6, h6⟩ := he6
    by_cases hsa : a.stageAll = true <;>
      simp [releaseSteps, stepsAfterRepo, syncPhase, tagPhase,
        retagPushOnlyPhase, tagPresentPhase, stagePhase, commitPhase, gitCall,
        gitCallPre, gitQuery, failPre, bind_eq, pure_eq, M.bind, h1, h6, hc,
        ht, hpc, hpt, hdry, hstaged, hsa]

/-- C7 witness: the three preflight scenarios at concrete inputs. -/
theorem C7_witness :
    (releaseSteps
        (fun o => match o with
          | .ensureTagAbsent _ => .error "exists"
          | _ => .ok true)
        ⟨"changelog.md", "origin", "v", false⟩
        ⟨true, true, true, true, true⟩ false ⟨"1.2.3", "T", "D"⟩).2 =
      .error (.preflight (tagExistsMsg "v1.2.3" "changelog.md")) ∧
    (releaseSteps
        (fun o => match o with
          | .ensureTagPresent _ => .error "missing"
          | _ => .ok true)
        ⟨"changelog.md", "origin", "v", false⟩
        ⟨false, false, false, false, true⟩ false ⟨"1.2.3", "T", "D"⟩).2 =
      .error (.preflight (tagMissingMsg "v1.2.3")) ∧
    (releaseSteps
        (fun o => match o with
          | .hasStagedChanges => .ok false
          | _ => .ok true)
        ⟨"changelog.md", "origin", "v", false⟩
        ⟨true, true, false, false, false⟩ false ⟨"1.2.3", "T", "D"⟩).2 =
      .error (.preflight (noStagedMsg true "changelog.md")) := by
  refine ⟨?_, ?_, ?_⟩
  · exact C7_preflight_errors.2.1
      (fun o => match o with
        | .ensureTagAbsent _ => .error "exists"
        | _ => .ok true)
      ⟨"changelog.md", "origin", "v", false⟩ ⟨true, true, true, true, true⟩
      ⟨"1.2.3", "T", "D"⟩ "exists" ⟨true, rfl⟩ ⟨true, rfl⟩ ⟨true, rfl⟩
      ⟨true, rfl⟩ rfl rfl
  · exact C7_preflight_errors.2.2.1
      (fun o => match o with
        | .ensureTagPresent _ => .error "missing"
        | _ => .ok true)
      ⟨"changelog.md", "origin", "v", false⟩ ⟨false, false, false, false, true⟩
      ⟨"1.2.3", "T", "D"⟩ "missing" ⟨true, rfl⟩ ⟨true, rfl⟩ ⟨true, rfl⟩
      ⟨true, rfl⟩ rfl rfl rfl
  · exact C7_preflight_errors.2.2.2
      (fun o => match o with
        | .hasStagedChanges => .ok false
        | _ => .ok true)
      ⟨"changelog.md", "origin", "v", false⟩ ⟨true, true, false, false, false⟩
      ⟨"1.2.3", "T", "D"⟩ ⟨true, rfl⟩ ⟨true, rfl⟩ rfl rfl rfl rfl rfl rfl

/-- C9: when `CreateTag` ran in this same invocation (the tag action was
requested and succeeded) and the subsequent `PushTag` fails, the error
message carries the created-locally remediation suffix; when the tag was
not created in this invocation, the port error is returned unchanged. -/
theorem C9_pushtag_remediation :
    (∀ (env : Env) (cfg : commonConfig) (a : releaseActions) (entry : Entry)
      (m : String),
      (∀ o : GitOp, (∀ r t, o ≠ GitOp.pushTag r t) → ∃ b, env o = Except.ok b) →
      env .hasStagedChanges = .ok true →
      a.tag = true → a.pushTag = true →
      env (.pushTag cfg.remote (cfg.tagPrefix ++ entry.Version)) = .error m →
      (releaseSteps env cfg a false entry).2 =
        .error (.git
          (m ++ pushTagRemediation (cfg.tagPrefix ++ entry.Version)))) ∧
    (∀ (env : Env) (cfg : commonConfig) (a : releaseActions) (entry : Entry)
      (m : String),
      (∀ o : GitOp, (∀ r t, o ≠ GitOp.pushTag r t) → ∃ b, env o = Except.ok b) →
      env .hasStagedChanges = .ok true →
      a.tag = false → a.pushTag = true →
      env (.pushTag cfg.remote (cfg.tagPrefix ++ entry.Version)) = .error m →
      (releaseSteps env cfg a false entry).2 = .error (.git m)) := by
  constructor
  · intro env cfg a entry m henv hstaged ht hpt hfail
    obtain ⟨c1, h1⟩ := henv .ensureRepo (fun r t => by simp)
    obtain ⟨c2, h2⟩ := henv (.ensureRemote cfg.remote) (fun r t => by simp)
    obtain ⟨c3, h3⟩ := henv (.fetchRemote cfg.remote) (fun r t => by simp)
    obtain ⟨c4, h4⟩ := henv (.pullFFOnly cfg.remote) (fun r t => by simp)
    obtain ⟨c5, h5⟩ := henv
      (.ensureTagAbsent (cfg.tagPrefix ++ entry.Version)) (fun r t => by simp)
    obtain ⟨c6, h6⟩ := henv .stageAll (fun r t => by simp)
    obtain ⟨c7, h7⟩ := henv
      (.commit entry.Summary entry.Description) (fun r t => by simp)
    obtain ⟨c8, h8⟩ := henv
      (.createTag (cfg.tagPrefix ++ entry.Version) entry.Summary
        entry.Description) (fun r t => by simp)
    obtain ⟨c9, h9⟩ := henv (.pushHead cfg.remote) (fun r t => by simp)
    by_cases hsa : a.stageAll = true <;> by_cases hcm : a.commit = true <;>
      by_cases hpc : a.pushCommit = true <;>
      by_cases hdry : cfg.dryRun = true <;>
      simp [releaseSteps, stepsAfterRepo, syncPhase, tagPhase,
        retagPushOnlyPhase, tagPresentPhase, stagePhase, commitPhase, gitCall,
        gitCallPre, gitQuery, pushTagStep, bind_eq, pure_eq, M.bind, h1, h2,
        h3, h4, h5, h6, h7, h8, h9, hstaged, hfail, ht, hpt, hsa, hcm, hpc,
        hdry]
  · intro env cfg a entry m henv hstaged ht hpt hfail
    obtain ⟨c1, h1⟩ := henv .ensureRepo (fun r t => by simp)
    obtain ⟨c2, h2⟩ := henv (.ensureRemote cfg.remote) (fun r t => by simp)
    obtain ⟨c3, h3⟩ := henv (.fetchRemote cfg.remote) (fun r t => by simp)
    obtain ⟨c4, h4⟩ := henv (.pullFFOnly cfg.remote) (fun r t => by simp)
    obtain ⟨c5, h5⟩ := henv
      (.ensureTagPresent (cfg.tagPrefix ++ entry.Version)) (fun r t => by simp)
    obtain ⟨c6, h6⟩ := henv .stageAll (fun r t => by simp)
    obtain ⟨c7, h7⟩ := henv
      (.commit entry.Summary entry.Description) (fun r t => by simp)
    obtain ⟨c9, h9⟩ := henv (.pushHead cfg.remote) (fun r t => by simp)
    by_cases hsa : a.stageAll = true <;> by_cases hcm : a.commit = true <;>
      by_cases hpc : a.pushCommit = true <;>
      by_cases hdry : cfg.dryRun = true <;>
      simp [releaseSteps, stepsAfterRepo, syncPhase, tagPhase,
        retagPushOnlyPhase, tagPresentPhase, stagePhase, commitPhase, gitCall,
        gitCallPre, gitQuery, pushTagStep, bind_eq, pure_eq, M.bind, h1, h2,
        h3, h4, h5, h6, h7, h9, hstaged, hfail, ht, hpt, hsa, hcm, hpc, hdry]

/-- C9 witness: the failing push in a full pipeline carries the
remediation suffix; a push-only run returns the raw port error. -/
theorem C9_witness :
    (releaseSteps
        (fun o => match o with
          | .pushTag _ _ => .error "push failed"
          | _ => .ok true)
        ⟨"changelog.md", "origin", "v", false⟩
        ⟨true, true, true, true, true⟩ false ⟨"1.2.3", "T", "D"⟩).2 =
      .error (.git ("push failed" ++ pushTagRemediation "v1.2.3")) ∧
    (releaseSteps
        (fun o => match o with
          | .pushTag _ _ => .error "push failed"
          | _ => .ok true)
        ⟨"changelog.md", "origin", "v", false⟩
        ⟨false, false, false, false, true⟩ false ⟨"1.2.3", "T", "D"⟩).2 =
      .error (.git "push failed") :=
  ⟨C9_pushtag_remediation.1
      (fun o => match o with
        | .pushTag _ _ => .error "push failed"
        | _ => .ok true)
      ⟨"changelog.md", "origin", "v", false⟩ ⟨true, true, true, true, true⟩
      ⟨"1.2.3", "T", "D"⟩ "push failed"
      (fun o ho => by
        cases o <;> first
          | exact ⟨true, rfl⟩
          | exact absurd rfl (ho _ _))
      rfl rfl rfl rfl,
   C9_pushtag_remediation.2
      (fun o => match o with
        | .pushTag _ _ => .error "push failed"
        | _ => .ok true)
      ⟨"changelog.md", "origin", "v", false⟩ ⟨false, false, false, false, true⟩
      ⟨"1.2.3", "T", "D"⟩ "push failed"
      (fun o ho => by
        cases o <;> first
          | exact ⟨true, rfl⟩
          | exact absurd rfl (ho _ _))
      rfl rfl rfl rfl⟩


/-! ## The git client (internal/gitutil/gitutil.go)

Each `Client` method shells out to git.  The external tool is abstracted
as an `Exec W`: running one command transforms an abstract repository
world and yields captured stdout or a failure message.  Each embedded
method reports the commands it actually executed, the lines it printed,
and its result.  The methods `FetchRemote`, `PullFFOnly`,
`DeleteLocalTag`, `DeleteRemoteTag`, `HasLocalTag` and `HasRemoteTag`
are required by the `gitOps` interface but their bodies are not in the
sources; they are modelled from the spec (each mutating call supports a
dry-run mode that reports the action without changing state; the `Has*`
calls are point-in-time read-only queries). -/

/-- A git command-line invocation issued by the client. -/
inductive GitCmd where
  | revParseInsideWorkTree : GitCmd
  | remoteGetUrl (remote : String) : GitCmd
  | fetchTags : GitCmd
  | revParseVerifyQuiet (tag : String) : GitCmd
  | addAll : GitCmd
  | diffCachedNameOnly : GitCmd
  | commitCmd (summary description : String) : GitCmd
  | tagAnnotate (tag message : String) : GitCmd
  | pushHeadCmd (remote : String) : GitCmd
  | pushTagCmd (remote tag : String) : GitCmd
  | fetchRemoteCmd (remote : String) : GitCmd
  | pullFFOnlyCmd (remote : String) : GitCmd
  | deleteLocalTagCmd (tag : String) : GitCmd
  | deleteRemoteTagCmd (remote tag : String) : GitCmd
  | hasLocalTagCmd (tag : String) : GitCmd
  | hasRemoteTagCmd (remote tag : String) : GitCmd
deriving Repr, DecidableEq

/-- `gitutil.GitError` (Op plus the wrapped error's message). -/
structure GitError where
  Op : String
  Err : String
deriving Repr, DecidableEq

/-- Result of a unit-returning client call. -/
structure GitStep (W : Type) where
  world : W
  cmds : List GitCmd
  printed : List String
  err : Option GitError

/-- Result of a boolean-returning client call. -/
structure GitQueryStep (W : Type) where
  world : W
  cmds : List GitCmd
  printed : List String
  res : Except GitError Bool

/-- The external git tool: one command transforms the world and yields
captured stdout, or fails with a message. -/
def Exec (W : Type) : Type := GitCmd → W → W × Except String String

namespace Client

variable {W : Type}

/-- `Client.EnsureRepo` (gitutil.go lines 39-45): read-only; no dry-run
branch. -/
def EnsureRepo (exec : Exec W) (w : W) : GitStep W :=
  let p := exec .revParseInsideWorkTree w
  match p.2 with
  | .ok out =>
    if trimGo out = "true" then ⟨p.1, [.revParseInsideWorkTree], [], none⟩
    else ⟨p.1, [.revParseInsideWorkTree], [],
      some ⟨"validate git repository", "not a git repository"⟩⟩
  | .error _ => ⟨p.1, [.revParseInsideWorkTree], [],
      some ⟨"validate git repository", "not a git repository"⟩⟩

/-- `Client.EnsureRemote` (gitutil.go lines 47-59): read-only. -/
def EnsureRemote (exec : Exec W) (w : W) (remote : String) : GitStep W :=
  let p := exec (.remoteGetUrl remote) w
  match p.2 with
  | .ok _ => ⟨p.1, [.remoteGetUrl remote], [], none⟩
  | .error _ => ⟨p.1, [.remoteGetUrl remote], [],
      some ⟨"validate git remote",
        "no \"" ++ remote ++ "\" remote set (mdrelease uses git remotes, not gh; set one with `git remote add "
          ++ remote ++ " <url>` or pass --remote <name>)"⟩⟩

/-- `Client.FetchTags` (gitutil.go lines 61-70): mutating, dry-run aware. -/
def FetchTags (exec : Exec W) (dryRun : Bool) (w : W) : GitStep W :=
  if dryRun then ⟨w, [], ["[dry-run] git fetch --tags"], none⟩
  else
    let p := exec .fetchTags w
    match p.2 with
    | .ok _ => ⟨p.1, [.fetchTags], [], none⟩
    | .error m => ⟨p.1, [.fetchTags], [], some ⟨"fetch tags", m⟩⟩

/-- `Client.EnsureTagAbsent` (gitutil.go lines 72-78): the probe is
`git rev-parse --verify --quiet <tag>`; an error is reported only when
the probe succeeds (the ref resolves); any probe failure is treated as
the tag being absent. -/
def EnsureTagAbsent (exec : Exec W) (w : W) (tag : String) : GitStep W :=
  let p := exec (.revParseVerifyQuiet tag) w
  match p.2 with
  | .ok _ => ⟨p.1, [.revParseVerifyQuiet tag], [],
      some ⟨"validate tag absence", "tag " ++ tag ++ " already exists"⟩⟩
  | .error _ => ⟨p.1, [.revParseVerifyQuiet tag], [], none⟩

/-- `Client.EnsureTagPresent` (gitutil.go lines 80-85): read-only. -/
def EnsureTagPresent (exec : Exec W) (w : W) (tag : String) : GitStep W :=
  let p := exec (.revParseVerifyQuiet tag) w
  match p.2 with
  | .ok _ => ⟨p.1, [.revParseVerifyQuiet tag], [], none⟩
  | .error _ => ⟨p.1, [.revParseVerifyQuiet tag], [],
      some ⟨"validate local tag", "tag " ++ tag ++ " does not exist locally"⟩⟩

/-- `Client.StageAll` (gitutil.go lines 87-96): mutating, dry-run aware. -/
def StageAll (exec : Exec W) (dryRun : Bool) (w : W) : GitStep W :=
  if dryRun then ⟨w, [], ["[dry-run] git add -A"], none⟩
  else
    let p := exec .addAll w
    match p.2 with
    | .ok _ => ⟨p.1, [.addAll], [], none⟩
    | .error m => ⟨p.1, [.addAll], [], some ⟨"stage changes", m⟩⟩

/-- `Client.HasStagedChanges` (gitutil.go lines 98-104): read-only; no
dry-run branch. -/
def HasStagedChanges (exec : Exec W) (w : W) : GitQueryStep W :=
  let p := exec .diffCachedNameOnly w
  match p.2 with
  | .ok out => ⟨p.1, [.diffCachedNameOnly], [], .ok (trimGo out != "")⟩
  | .error m => ⟨p.1, [.diffCachedNameOnly], [],
      .error ⟨"check staged changes", m⟩⟩

/-- `Client.Commit` (gitutil.go lines 106-124): mutating, dry-run aware
(the `%q` quoting of the dry-run report is modelled as plain quoting). -/
def Commit (exec : Exec W) (dryRun : Bool) (w : W)
    (summary description : String) : GitStep W :=
  if dryRun then
    ⟨w, [], ["[dry-run] git commit -m \"" ++ summary ++ "\"" ++
      (if description = "" then "" else " -m <description>")], none⟩
  else
    let p := exec (.commitCmd summary description) w
    match p.2 with
    | .ok _ => ⟨p.1, [.commitCmd summary description], [], none⟩
    | .error m => ⟨p.1, [.commitCmd summary description], [],
        some ⟨"commit changes", m⟩⟩

/-- `Client.CreateTag` (gitutil.go lines 126-144): mutating, dry-run
aware; the tag message appends the description after a blank line. -/
def CreateTag (exec : Exec W) (dryRun : Bool) (w : W)
    (tag summary description : String) : GitStep W :=
  if dryRun then
    ⟨w, [], ["[dry-run] git tag -a " ++ tag ++ " -m \"" ++ summary ++ "\"" ++
      (if description = "" then "" else " (with description)")], none⟩
  else
    let message := if description = "" then summary
      else summary ++ "\n\n" ++ description
    let p := exec (.tagAnnotate tag message) w
    match p.2 with
    | .ok _ => ⟨p.1, [.tagAnnotate tag message], [], none⟩
    | .error m => ⟨p.1, [.tagAnnotate tag message], [], some ⟨"create tag", m⟩⟩

/-- `Client.PushHead` (gitutil.go lines 146-155): mutating, dry-run
aware. -/
def PushHead (exec : Exec W) (dryRun : Bool) (w : W) (remote : String) :
    GitStep W :=
  if dryRun then ⟨w, [], ["[dry-run] git push " ++ remote ++ " HEAD"], none⟩
  else
    let p := exec (.pushHeadCmd remote) w
    match p.2 with
    | .ok _ => ⟨p.1, [.pushHeadCmd remote], [], none⟩
    | .error m => ⟨p.1, [.pushHeadCmd remote], [], some ⟨"push commit", m⟩⟩

/-- `Client.PushTag` (gitutil.go lines 157-166): mutating, dry-run
aware. -/
def PushTag (exec : Exec W) (dryRun : Bool) (w : W) (remote tag : String) :
    GitStep W :=
  if dryRun then
    ⟨w, [], ["[dry-run] git push " ++ remote ++ " " ++ tag], none⟩
  else
    let p := exec (.pushTagCmd remote tag) w
    match p.2 with
    | .ok _ => ⟨p.1, [.pushTagCmd remote tag], [], none⟩
    | .error m => ⟨p.1, [.pushTagCmd remote tag], [], some ⟨"push tag", m⟩⟩

/-- Modelled from the spec: `Client.FetchRemote` is required by the
`gitOps` interface but absent from the sources; per §6 it is a mutating
call whose dry-run mode reports the action without changing state. -/
def FetchRemote (exec : Exec W) (dryRun : Bool) (w : W) (remote : String) :
    GitStep W :=
  if dryRun then ⟨w, [], ["[dry-run] git fetch " ++ remote], none⟩
  else
    let p := exec (.fetchRemoteCmd remote) w
    match p.2 with
    | .ok _ => ⟨p.1, [.fetchRemoteCmd remote], [], none⟩
    | .error m => ⟨p.1, [.fetchRemoteCmd remote], [], some ⟨"fetch remote", m⟩⟩

/-- Modelled from the spec: `Client.PullFFOnly` (absent from the
sources); a mutating call with dry-run reporting. -/
def PullFFOnly (exec : Exec W) (dryRun : Bool) (w : W) (remote : String) :
    GitStep W :=
  if dryRun then
    ⟨w, [], ["[dry-run] git pull --ff-only " ++ remote], none⟩
  else
    let p := exec (.pullFFOnlyCmd remote) w
    match p.2 with
    | .ok _ => ⟨p.1, [.pullFFOnlyCmd remote], [], none⟩
    | .error m => ⟨p.1, [.pullFFOnlyCmd remote], [], some ⟨"pull", m⟩⟩

/-- Modelled from the spec: `Client.DeleteLocalTag` (absent from the
sources); a mutating call with dry-run reporting. -/
def DeleteLocalTag (exec : Exec W) (dryRun : Bool) (w : W) (tag : String) :
    GitStep W :=
  if dryRun then ⟨w, [], ["[dry-run] git tag -d " ++ tag], none⟩
  else
    let p := exec (.deleteLocalTagCmd tag) w
    match p.2 with
    | .ok _ => ⟨p.1, [.deleteLocalTagCmd tag], [], none⟩
    | .error m => ⟨p.1, [.deleteLocalTagCmd tag], [],
        some ⟨"delete local tag", m⟩⟩

/-- Modelled from the spec: `Client.DeleteRemoteTag` (absent from the
sources); a mutating call with dry-run reporting. -/
def DeleteRemoteTag (exec : Exec W) (dryRun : Bool) (w : W)
    (remote tag : String) : GitStep W :=
  if dryRun then
    ⟨w, [], ["[dry-run] git push " ++ remote ++ " :refs/tags/" ++ tag], none⟩
  else
    let p := exec (.deleteRemoteTagCmd remote tag) w
    match p.2 with
    | .ok _ => ⟨p.1, [.deleteRemoteTagCmd remote tag], [], none⟩
    | .error m => ⟨p.1, [.deleteRemoteTagCmd remote tag], [],
        some ⟨"delete remote tag", m⟩⟩

/-- Modelled from the spec: `Client.HasLocalTag` (absent from the
sources); a point-in-time read-only query. -/
def HasLocalTag (exec : Exec W) (w : W) (tag : String) : GitQueryStep W :=
  let p := exec (.hasLocalTagCmd tag) w
  match p.2 with
  | .ok out => ⟨p.1, [.hasLocalTagCmd tag], [], .ok (trimGo out != "")⟩
  | .error m => ⟨p.1, [.hasLocalTagCmd tag], [],
      .error ⟨"check local tag", m⟩⟩

/-- Modelled from the spec: `Client.HasRemoteTag` (absent from the
sources); a point-in-time read-only query. -/
def HasRemoteTag (exec : Exec W) (w : W) (remote tag : String) :
    GitQueryStep W :=
  let p := exec (.hasRemoteTagCmd remote tag) w
  match p.2 with
  | .ok out => ⟨p.1, [.hasRemoteTagCmd remote tag], [], .ok (trimGo out != "")⟩
  | .error m => ⟨p.1, [.hasRemoteTagCmd remote tag], [],
      .error ⟨"check remote tag", m⟩⟩

end Client


/-- C10: `EnsureTagAbsent` reports an error exactly when the underlying
`git rev-parse --verify --quiet` probe succeeds (the ref resolves); any
probe failure — an invalid tag name or a hard git failure alike — is
treated as the tag being absent, so the tag-absence check never
surfaces a hard error of its own. -/
theorem C10_ensureTagAbsent_probe :
    ∀ (W : Type) (exec : Exec W) (w : W) (tag : String),
      ((Client.EnsureTagAbsent exec w tag).err ≠ none ↔
        ∃ out, (exec (.revParseVerifyQuiet tag) w).2 = .ok out) ∧
      (∀ m, (exec (.revParseVerifyQuiet tag) w).2 = .error m →
        (Client.EnsureTagAbsent exec w tag).err = none) := by
  intro W exec w tag
  constructor
  · cases hp : (exec (.revParseVerifyQuiet tag) w).2 with
    | ok out => simp [Client.EnsureTagAbsent, hp]
    | error m => simp [Client.EnsureTagAbsent, hp]
  · intro m hm
    simp [Client.EnsureTagAbsent, hm]

/-- C10 witness: a probe that fails (e.g. on an invalid ref such as
`bad..ref`) makes `EnsureTagAbsent` succeed. -/
theorem C10_witness :
    (Client.EnsureTagAbsent (W := Unit)
      (fun _ u => (u, .error "fatal: needed a single revision")) () "bad..ref").err
      = none :=
  (C10_ensureTagAbsent_probe Unit
    (fun _ u => (u, .error "fatal: needed a single revision")) () "bad..ref").2
    "fatal: needed a single revision" rfl


/-- In dry-run with stage-all the staged-changes query is never issued by
the commit phase. -/
theorem commitPhase_dry_sublist {env : Env} {path : String}
    {a : releaseActions} {dry : Bool} {e : Entry}
    (h : (dry && a.stageAll) = true) :
    (commitPhase env path a dry e).1 <+
      [.commit e.Summary e.Description] := by
  rw [commitPhase]
  by_cases hc : a.commit = true
  · rw [if_pos hc]
    refine trace_bind_sublist (u := [])
      (v := [.commit e.Summary e.Description]) ?_
      (fun _ => gitCall_sublist (by simp))
    rw [if_pos h]
    exact List.nil_sublist _
  · rw [if_neg hc]; exact List.nil_sublist _

/-- When the staged-changes check is not suppressed and the commit action
is requested, the commit phase issues the query first. -/
theorem commitPhase_mem {env : Env} {path : String} {a : releaseActions}
    {dry : Bool} {e : Entry} (h1 : (dry && a.stageAll) = false)
    (h2 : a.commit = true) :
    GitOp.hasStagedChanges ∈ (commitPhase env path a dry e).1 := by
  rw [commitPhase, if_pos h2]
  have h1n : ¬(dry = true ∧ a.stageAll = true) := by
    intro hh
    rw [hh.1, hh.2] at h1
    exact Bool.noConfusion h1
  cases hq : env .hasStagedChanges with
  | error m =>
    simp [h1n, gitQuery, bind_eq, pure_eq, failPre, M.bind, hq]
  | ok b =>
    by_cases hb : b = true <;>
      simp [h1n, gitQuery, gitCall, bind_eq, pure_eq, failPre, M.bind,
        hq, hb]

theorem mem_bind_left {α β : Type} {x : M α} {f : α → M β} {o : GitOp}
    (h : o ∈ x.1) : o ∈ (x >>= f).1 := by
  obtain ⟨t, r⟩ := x
  cases r with
  | error e => exact h
  | ok a => exact List.mem_append.mpr (Or.inl h)

theorem gitCall_ok {env : Env} {o : GitOp} (h : ∃ b, env o = Except.ok b) :
    (gitCall env o).2 = .ok () := by
  obtain ⟨b, hb⟩ := h
  simp [gitCall, hb]

theorem syncPhase_ok {env : Env} {r : String} {b : Bool}
    (henv : ∀ o, ∃ x, env o = Except.ok x) :
    (syncPhase env r b).2 = .ok () := by
  obtain ⟨b1, h1⟩ := henv (.ensureRemote r)
  obtain ⟨b2, h2⟩ := henv (.fetchRemote r)
  obtain ⟨b3, h3⟩ := henv (.pullFFOnly r)
  by_cases hb : b = true <;>
    simp [syncPhase, gitCall, bind_eq, pure_eq, M.bind, h1, h2, h3, hb]

theorem tagPhase_ok {env : Env} {r tag path : String} {a : releaseActions}
    {fr : Bool} (henv : ∀ o, ∃ x, env o = Except.ok x) :
    (tagPhase env r tag path a fr).2 = .ok () := by
  obtain ⟨b1, h1⟩ := henv (.hasRemoteTag r tag)
  obtain ⟨b2, h2⟩ := henv (.deleteRemoteTag r tag)
  obtain ⟨b3, h3⟩ := henv (.hasLocalTag tag)
  obtain ⟨b4, h4⟩ := henv (.deleteLocalTag tag)
  obtain ⟨b5, h5⟩ := henv (.ensureTagAbsent tag)
  by_cases ht : a.tag = true <;> by_cases hf : fr = true <;>
    by_cases hp : a.pushTag = true <;> by_cases hb1 : b1 = true <;>
    by_cases hb3 : b3 = true <;>
    simp [tagPhase, gitCall, gitCallPre, gitQuery, bind_eq, pure_eq, M.bind,
      h1, h2, h3, h4, h5, ht, hf, hp, hb1, hb3]

theorem retagPushOnlyPhase_ok {env : Env} {r tag : String}
    {a : releaseActions} {fr : Bool} (henv : ∀ o, ∃ x, env o = Except.ok x) :
    (retagPushOnlyPhase env r tag a fr).2 = .ok () := by
  obtain ⟨b1, h1⟩ := henv (.hasRemoteTag r tag)
  obtain ⟨b2, h2⟩ := henv (.deleteRemoteTag r tag)
  by_cases hc : (fr && a.pushTag && !a.tag) = true <;>
    by_cases hb1 : b1 = true <;>
    simp [retagPushOnlyPhase, gitCall, gitQuery, bind_eq, pure_eq, M.bind,
      h1, h2, hc, hb1]

theorem tagPresentPhase_ok {env : Env} {tag : String} {a : releaseActions}
    (henv : ∀ o, ∃ x, env o = Except.ok x) :
    (tagPresentPhase env tag a).2 = .ok () := by
  obtain ⟨b1, h1⟩ := henv (.ensureTagPresent tag)
  by_cases hc : (a.pushTag && !a.tag) = true <;>
    simp [tagPresentPhase, gitCallPre, bind_eq, pure_eq, M.bind, h1, hc]

theorem stagePhase_ok {env : Env} {a : releaseActions}
    (henv : ∀ o, ∃ x, env o = Except.ok x) :
    (stagePhase env a).2 = .ok () := by
  obtain ⟨b1, h1⟩ := henv .stageAll
  by_cases hc : a.stageAll = true <;>
    simp [stagePhase, gitCall, bind_eq, pure_eq, M.bind, h1, hc]

/-- Dry-run with stage-all suppresses the staged-changes query in every
run. -/
theorem hasStaged_not_issued_dry {env : Env} {cfg : commonConfig}
    {a : releaseActions} {fr : Bool} {entry : Entry}
    (hdry : cfg.dryRun = true) (hsa : a.stageAll = true) :
    GitOp.hasStagedChanges ∉ (releaseSteps env cfg a fr entry).1 := by
  intro h
  rw [releaseSteps] at h
  rcases mem_bind h with h | ⟨u, hok, h⟩
  · rw [gitCall_trace] at h; simp at h
  · rw [stepsAfterRepo] at h
    rcases mem_bind h with h | ⟨u2, _, h⟩
    · have hm := (syncPhase_sublist env cfg.remote _).subset h
      simp at hm
    · rcases mem_bind h with h | ⟨u3, _, h⟩
      · have hm := (tagPhase_sublist env cfg.remote _ cfg.changelogPath
          a fr).subset h
        simp at hm
      · rcases mem_bind h with h | ⟨u4, _, h⟩
        · have hm := (retagPushOnlyPhase_sublist env cfg.remote _ a fr).subset h
          simp at hm
        · rcases mem_bind h with h | ⟨u5, _, h⟩
          · have hm := (tagPresentPhase_sublist env _ a).subset h
            simp at hm
          · rcases mem_bind h with h | ⟨u6, _, h⟩
            · have hm := (stagePhase_sublist env a).subset h
              simp at hm
            · rcases mem_bind h with h | ⟨u7, _, h⟩
              · have hm := (commitPhase_dry_sublist
                  (by simp [hdry, hsa])).subset h
                simp at hm
              · rcases mem_bind h with h | ⟨u8, _, h⟩
                · have hm := (ifCall_sublist (e := env) (b := a.tag)
                    (o := .createTag (cfg.tagPrefix ++ entry.Version)
                      entry.Summary entry.Description)).subset h
                  simp at hm
                · rcases mem_bind h with h | ⟨u9, _, h⟩
                  · have hm := (ifCall_sublist (e := env) (b := a.pushCommit)
                      (o := .pushHead cfg.remote)).subset h
                    simp at hm
                  · by_cases hp : a.pushTag = true
                    · rw [if_pos hp, pushTagStep_trace] at h
                      simp at h
                    · rw [if_neg hp] at h
                      exact absurd h (List.not_mem_nil _)

/-- When the check is not suppressed, a commit run issues the
staged-changes query (environment calls succeeding). -/
theorem hasStaged_issued {env : Env} {cfg : commonConfig}
    {a : releaseActions} {fr : Bool} {entry : Entry}
    (henv : ∀ o, ∃ x, env o = Except.ok x)
    (hnd : (cfg.dryRun && a.stageAll) = false) (hc : a.commit = true) :
    GitOp.hasStagedChanges ∈ (releaseSteps env cfg a fr entry).1 := by
  rw [releaseSteps, trace_bind_ok (gitCall_ok (henv .ensureRepo)),
    stepsAfterRepo, trace_bind_ok (syncPhase_ok henv),
    trace_bind_ok (tagPhase_ok henv),
    trace_bind_ok (retagPushOnlyPhase_ok henv),
    trace_bind_ok (tagPresentPhase_ok henv),
    trace_bind_ok (stagePhase_ok henv)]
  have hmem : GitOp.hasStagedChanges ∈
      ((commitPhase env cfg.changelogPath a cfg.dryRun entry >>= fun _ =>
        (if a.tag then gitCall env
          (.createTag (cfg.tagPrefix ++ entry.Version) entry.Summary
            entry.Description) else pure ()) >>= fun _ =>
        (if a.pushCommit then gitCall env (.pushHead cfg.remote)
          else pure ()) >>= fun _ =>
        (if a.pushTag then
          pushTagStep env cfg.remote (cfg.tagPrefix ++ entry.Version) a.tag
          else pure ())) : M Unit).1 :=
    mem_bind_left (commitPhase_mem hnd hc)
  simp [List.mem_append, hmem]


/-- C8: dry-run frame.  Every mutating client call (fetch-tags, stage,
commit, tag creation, push, and the spec-modelled fetch/pull and tag
deletions) leaves the repository world unchanged and executes no git
command in dry-run, only printing what would run; every read-only
precondition check (repository and remote validation, tag existence and
absence probes, the staged-changes query) has no dry-run branch and
always issues its probe.  At the orchestrator the only suppressed check
is the staged-changes assertion, suppressed exactly when dryRun and
stageAll are both set: with both set it is issued in no run, and with
the conjunction false a commit run (environment calls succeeding)
issues it. -/
theorem C8_dry_run_frame :
    (∀ (W : Type) (exec : Exec W) (w : W) (r t s d : String),
      ((Client.FetchTags exec true w).world = w ∧
        (Client.FetchTags exec true w).cmds = [] ∧
        (Client.FetchTags exec true w).err = none ∧
        (Client.FetchTags exec true w).printed ≠ []) ∧
      ((Client.StageAll exec true w).world = w ∧
        (Client.StageAll exec true w).cmds = [] ∧
        (Client.StageAll exec true w).err = none ∧
        (Client.StageAll exec true w).printed ≠ []) ∧
      ((Client.Commit exec true w s d).world = w ∧
        (Client.Commit exec true w s d).cmds = [] ∧
        (Client.Commit exec true w s d).err = none ∧
        (Client.Commit exec true w s d).printed ≠ []) ∧
      ((Client.CreateTag exec true w t s d).world = w ∧
        (Client.CreateTag exec true w t s d).cmds = [] ∧
        (Client.CreateTag exec true w t s d).err = none ∧
        (Client.CreateTag exec true w t s d).printed ≠ []) ∧
      ((Client.PushHead exec true w r).world = w ∧
        (Client.PushHead exec true w r).cmds = [] ∧
        (Client.PushHead exec true w r).err = none ∧
        (Client.PushHead exec true w r).printed ≠ []) ∧
      ((Client.PushTag exec true w r t).world = w ∧
        (Client.PushTag exec true w r t).cmds = [] ∧
        (Client.PushTag exec true w r t).err = none ∧
        (Client.PushTag exec true w r t).printed ≠ []) ∧
      ((Client.FetchRemote exec true w r).world = w ∧
        (Client.FetchRemote exec true w r).cmds = [] ∧
        (Client.FetchRemote exec true w r).err = none ∧
        (Client.FetchRemote exec true w r).printed ≠ []) ∧
      ((Client.PullFFOnly exec true w r).world = w ∧
        (Client.PullFFOnly exec true w r).cmds = [] ∧
        (Client.PullFFOnly exec true w r).err = none ∧
        (Client.PullFFOnly exec true w r).printed ≠ []) ∧
      ((Client.DeleteLocalTag exec true w t).world = w ∧
        (Client.DeleteLocalTag exec true w t).cmds = [] ∧
        (Client.DeleteLocalTag exec true w t).err = none ∧
        (Client.DeleteLocalTag exec true w t).printed ≠ []) ∧
      ((Client.DeleteRemoteTag exec true w r t).world = w ∧
        (Client.DeleteRemoteTag exec true w r t).cmds = [] ∧
        (Client.DeleteRemoteTag exec true w r t).err = none ∧
        (Client.DeleteRemoteTag exec true w r t).printed ≠ [])) ∧
    (∀ (W : Type) (exec : Exec W) (w : W) (r t : String),
      (Client.EnsureRepo exec w).cmds = [.revParseInsideWorkTree] ∧
      (Client.EnsureRemote exec w r).cmds = [.remoteGetUrl r] ∧
      (Client.EnsureTagAbsent exec w t).cmds = [.revParseVerifyQuiet t] ∧
      (Client.EnsureTagPresent exec w t).cmds = [.revParseVerifyQuiet t] ∧
      (Client.HasStagedChanges exec w).cmds = [.diffCachedNameOnly] ∧
      (Client.HasLocalTag exec w t).cmds = [.hasLocalTagCmd t] ∧
      (Client.HasRemoteTag exec w r t).cmds = [.hasRemoteTagCmd r t]) ∧
    (∀ (env : Env) (cfg : commonConfig) (a : releaseActions) (fr : Bool)
      (entry : Entry), cfg.dryRun = true → a.stageAll = true →
      GitOp.hasStagedChanges ∉ (releaseSteps env cfg a fr entry).1) ∧
    (∀ (env : Env) (cfg : commonConfig) (a : releaseActions) (fr : Bool)
      (entry : Entry), (∀ o, ∃ x, env o = Except.ok x) →
      (cfg.dryRun && a.stageAll) = false → a.commit = true →
      GitOp.hasStagedChanges ∈ (releaseSteps env cfg a fr entry).1) := by
  refine ⟨?_, ?_, ?_, ?_⟩
  · intro W exec w r t s d
    simp [Client.FetchTags, Client.StageAll, Client.Commit, Client.CreateTag,
      Client.PushHead, Client.PushTag, Client.FetchRemote, Client.PullFFOnly,
      Client.DeleteLocalTag, Client.DeleteRemoteTag]
  · intro W exec w r t
    refine ⟨?_, ?_, ?_, ?_, ?_, ?_, ?_⟩
    · cases h : (exec .revParseInsideWorkTree w).2 with
      | error m => simp [Client.EnsureRepo, h]
      | ok out =>
        simp only [Client.EnsureRepo, h]
        split <;> rfl
    · cases h : (exec (.remoteGetUrl r) w).2 with
      | error m => simp [Client.EnsureRemote, h]
      | ok out => simp [Client.EnsureRemote, h]
    · cases h : (exec (.revParseVerifyQuiet t) w).2 with
      | error m => simp [Client.EnsureTagAbsent, h]
      | ok out => simp [Client.EnsureTagAbsent, h]
    · cases h : (exec (.revParseVerifyQuiet t) w).2 with
      | error m => simp [Client.EnsureTagPresent, h]
      | ok out => simp [Client.EnsureTagPresent, h]
    · cases h : (exec .diffCachedNameOnly w).2 with
      | error m => simp [Client.HasStagedChanges, h]
      | ok out => simp [Client.HasStagedChanges, h]
    · cases h : (exec (.hasLocalTagCmd t) w).2 with
      | error m => simp [Client.HasLocalTag, h]
      | ok out => simp [Client.HasLocalTag, h]
    · cases h : (exec (.hasRemoteTagCmd r t) w).2 with
      | error m => simp [Client.HasRemoteTag, h]
      | ok out => simp [Client.HasRemoteTag, h]
  · exact fun env cfg a fr entry hd hs => hasStaged_not_issued_dry hd hs
  · exact fun env cfg a fr entry henv hnd hc => hasStaged_issued henv hnd hc

/-- C8 witness: the mutating-call frame at a concrete executor and
world, a dry-run stage-all run issuing no staged-changes query, and a
real commit run issuing it. -/
theorem C8_witness :
    (Client.FetchTags (fun _ w => (w + 1, Except.ok "")) true 0).world = 0 ∧
    (Client.EnsureTagAbsent (fun _ w => (w, Except.ok "ref")) 0 "v1.2.3").cmds
      = [.revParseVerifyQuiet "v1.2.3"] ∧
    GitOp.hasStagedChanges ∉
      (releaseSteps (fun _ => Except.ok true)
        ⟨"changelog.md", "origin", "v", true⟩
        ⟨true, true, true, true, true⟩ false ⟨"1.2.3", "T", "D"⟩).1 ∧
    GitOp.hasStagedChanges ∈
      (releaseSteps (fun _ => Except.ok true)
        ⟨"changelog.md", "origin", "v", false⟩
        ⟨true, true, false, false, false⟩ false ⟨"1.2.3", "T", "D"⟩).1 :=
  ⟨(C8_dry_run_frame.1 Nat (fun _ w => (w + 1, Except.ok "")) 0 "origin"
      "v1.2.3" "T" "D").1.1,
   (C8_dry_run_frame.2.1 Nat (fun _ w => (w, Except.ok "ref")) 0 "origin"
      "v1.2.3").2.2.1,
   C8_dry_run_frame.2.2.1 (fun _ => Except.ok true)
     ⟨"changelog.md", "origin", "v", true⟩ ⟨true, true, true, true, true⟩
     false ⟨"1.2.3", "T", "D"⟩ rfl rfl,
   C8_dry_run_frame.2.2.2 (fun _ => Except.ok true)
     ⟨"changelog.md", "origin", "v", false⟩ ⟨true, true, false, false, false⟩
     false ⟨"1.2.3", "T", "D"⟩ (fun o => ⟨true, rfl⟩) rfl rfl⟩

end Mdrelease
